import Mathlib

/-!
Verification of the LZMA/LZMA2 engine specification and of the allocator
source (src/C/Alloc.c) of this repository.

The LZMA engine itself (range coder, probability model, decoder, LZMA2
framing, distance-slot coding) is not present under src/ — only its
documentation is — so those parts are modelled from the specification text
(spec.md), as indicated by the doc comment of each such definition.  The
allocator definitions are shallow embeddings of src/C/Alloc.c.
-/

namespace Spec2Proof

/-! ## Probability model (spec §3 "Probability", §8 property 3) -/

/-- Modelled from the spec: every context probability is an 11-bit value
initialized to 1024 (equiprobable).  The engine source (LzmaEnc.c /
LzmaDec.c) is not under src/. -/
def probInit : ℕ := 1024

/-- Modelled from the spec: update on bit 0, `prob += (2048 - prob) >> 5`. -/
def probUpdate0 (p : ℕ) : ℕ := p + (2048 - p) >>> 5

/-- Modelled from the spec: update on bit 1, `prob -= prob >> 5`. -/
def probUpdate1 (p : ℕ) : ℕ := p - p >>> 5

/-- Modelled from the spec: the probability resulting from a sequence of bit
updates (`false` = bit 0, `true` = bit 1), applied left to right from `p`. -/
def probRun (p : ℕ) : List Bool → ℕ
  | [] => p
  | b :: bs => probRun (if b then probUpdate1 p else probUpdate0 p) bs

theorem probUpdate0_mem (p : ℕ) (h1 : 31 ≤ p) (h2 : p ≤ 2017) :
    31 ≤ probUpdate0 p ∧ probUpdate0 p ≤ 2017 := by
  unfold probUpdate0
  rw [Nat.shiftRight_eq_div_pow]
  omega

theorem probUpdate1_mem (p : ℕ) (h1 : 31 ≤ p) (h2 : p ≤ 2017) :
    31 ≤ probUpdate1 p ∧ probUpdate1 p ≤ 2017 := by
  unfold probUpdate1
  rw [Nat.shiftRight_eq_div_pow]
  omega

theorem probRun_mem (bits : List Bool) :
    ∀ p, 31 ≤ p → p ≤ 2017 → 31 ≤ probRun p bits ∧ probRun p bits ≤ 2017 := by
  induction bits with
  | nil => intro p h1 h2; exact ⟨h1, h2⟩
  | cons b bs ih =>
    intro p h1 h2
    cases b with
    | false =>
      have h := probUpdate0_mem p h1 h2
      simpa [probRun] using ih (probUpdate0 p) h.1 h.2
    | true =>
      have h := probUpdate1_mem p h1 h2
      simpa [probRun] using ih (probUpdate1 p) h.1 h.2

set_option maxRecDepth 10000 in
/-- C3 counterexample: 127 consecutive bit-1 updates drive the probability
from its initial value 1024 down to 31, which lies outside the claimed
interval `[32, 2016]`, so the claim as stated is false. -/
theorem prob_claimed_interval_counterexample :
    ¬ (List.replicate 127 true = [] ∨
       (32 ≤ probRun probInit (List.replicate 127 true) ∧
        probRun probInit (List.replicate 127 true) ≤ 2016)) := by
  decide

/-- C3 (amended): every context probability starts at 1024 and, after any
sequence of spec updates, lies in `[31, 2017]`; in particular it never
saturates to 0 or 2048.  (The claimed interval `[32, 2016]` is too tight:
the true fixed points of the update rules are 31 and 2017.) -/
theorem prob_range_invariant (bits : List Bool) :
    31 ≤ probRun probInit bits ∧ probRun probInit bits ≤ 2017 ∧
    probRun probInit bits ≠ 0 ∧ probRun probInit bits ≠ 2048 := by
  have h := probRun_mem bits probInit (by norm_num [probInit]) (by norm_num [probInit])
  exact ⟨h.1, h.2, by omega, by omega⟩

/-! ## LZMA properties header (spec §4.6 `writeProperties`, §6) -/

/-- Modelled from the spec: `writeProperties(out[5])` — one byte encoding
`(pb*5 + lp)*9 + lc`, then 4 little-endian bytes of `dictSize`.  The encoder
source is not under src/. -/
def writeProperties (lc lp pb dictSize : ℕ) : List ℕ :=
  [(pb * 5 + lp) * 9 + lc,
   dictSize % 256, dictSize / 2 ^ 8 % 256, dictSize / 2 ^ 16 % 256, dictSize / 2 ^ 24 % 256]

/-- Modelled from the spec: decoding properties byte 0 recovers the triple
`(lc, lp, pb)`; a byte that cannot arise from a valid triple (≥ 9·5·5) is
malformed (spec §7: malformed properties → Corrupt). -/
def decodePropByte (d : ℕ) : Option (ℕ × ℕ × ℕ) :=
  if d < 225 then some (d % 9, d / 9 % 5, d / 45) else none

/-- Modelled from the spec: bytes 1..4 are `dictSize` little-endian; values
below 4096 are rounded up to 4096 on decode, and `0xFFFFFFFF` is permitted. -/
def decodeDictSize (b1 b2 b3 b4 : ℕ) : ℕ :=
  let ds := b1 + b2 * 2 ^ 8 + b3 * 2 ^ 16 + b4 * 2 ^ 24
  if ds < 4096 then 4096 else ds

/-- Modelled from the spec: decoding the full 5-byte properties header. -/
def decodeProperties (bytes : List ℕ) : Option (ℕ × ℕ × ℕ × ℕ) :=
  match bytes with
  | [d, b1, b2, b3, b4] =>
      (decodePropByte d).map (fun t => (t.1, t.2.1, t.2.2, decodeDictSize b1 b2 b3 b4))
  | _ => none

/-- C5: `writeProperties` emits exactly 5 bytes — byte 0 is
`(pb*5 + lp)*9 + lc` and bytes 1..4 are `dictSize` little-endian; decoding
recovers exactly the written triple (so the byte-0 encoding is injective on
valid triples), a `dictSize` below 4096 is rounded up to 4096 on decode,
and `0xFFFFFFFF` is accepted unchanged. -/
theorem writeProperties_roundtrip (lc lp pb ds : ℕ)
    (hvalid : lc + lp ≤ 4) (hpb : pb ≤ 4) (hds : ds < 2 ^ 32) :
    (writeProperties lc lp pb ds).length = 5 ∧
    (writeProperties lc lp pb ds).headI = (pb * 5 + lp) * 9 + lc ∧
    decodeProperties (writeProperties lc lp pb ds) =
      some (lc, lp, pb, if ds < 4096 then 4096 else ds) ∧
    (∀ lc' lp' pb', lc' + lp' ≤ 4 → pb' ≤ 4 →
      (pb * 5 + lp) * 9 + lc = (pb' * 5 + lp') * 9 + lc' →
      lc = lc' ∧ lp = lp' ∧ pb = pb') ∧
    decodeDictSize 255 255 255 255 = 4294967295 := by
  refine ⟨rfl, rfl, ?_, ?_, by norm_num [decodeDictSize]⟩
  · have hb : (pb * 5 + lp) * 9 + lc < 225 := by omega
    simp only [writeProperties, decodeProperties, decodePropByte, if_pos hb, Option.map_some,
      decodeDictSize]
    have h9 : ((pb * 5 + lp) * 9 + lc) % 9 = lc := by omega
    have h5 : ((pb * 5 + lp) * 9 + lc) / 9 % 5 = lp := by omega
    have h45 : ((pb * 5 + lp) * 9 + lc) / 45 = pb := by omega
    have hdigits : ds % 256 + ds / 2 ^ 8 % 256 * 2 ^ 8 + ds / 2 ^ 16 % 256 * 2 ^ 16 +
        ds / 2 ^ 24 % 256 * 2 ^ 24 = ds := by omega
    rw [h9, h5, h45, hdigits]
    rfl
  · intro lc' lp' pb' h1 h2 h3
    have a1 : ((pb * 5 + lp) * 9 + lc) % 9 = lc := by omega
    have a2 : ((pb' * 5 + lp') * 9 + lc') % 9 = lc' := by omega
    have b1 : ((pb * 5 + lp) * 9 + lc) / 9 % 5 = lp := by omega
    have b2 : ((pb' * 5 + lp') * 9 + lc') / 9 % 5 = lp' := by omega
    have c1 : ((pb * 5 + lp) * 9 + lc) / 45 = pb := by omega
    have c2 : ((pb' * 5 + lp') * 9 + lc') / 45 = pb' := by omega
    rw [h3] at a1 b1 c1
    omega

/-- C5 witness: concrete instance lc=3, lp=0, pb=2, dictSize=1000 (rounded
up to 4096 on decode). -/
theorem writeProperties_roundtrip_witness :
    (3 + 0 ≤ 4 ∧ 2 ≤ 4 ∧ 1000 < 2 ^ 32) ∧
    ((writeProperties 3 0 2 1000).length = 5 ∧
     (writeProperties 3 0 2 1000).headI = (2 * 5 + 0) * 9 + 3 ∧
     decodeProperties (writeProperties 3 0 2 1000) =
       some (3, 0, 2, if 1000 < 4096 then 4096 else 1000) ∧
     (∀ lc' lp' pb', lc' + lp' ≤ 4 → pb' ≤ 4 →
       (2 * 5 + 0) * 9 + 3 = (pb' * 5 + lp') * 9 + lc' →
       3 = lc' ∧ 0 = lp' ∧ 2 = pb') ∧
     decodeDictSize 255 255 255 255 = 4294967295) :=
  ⟨⟨by norm_num, by norm_num, by norm_num⟩,
   writeProperties_roundtrip 3 0 2 1000 (by norm_num) (by norm_num) (by norm_num)⟩

/-! ## LZMA2 chunk control byte (spec §4.8) -/

/-- Modelled from the spec: for a compressed LZMA2 chunk (control byte
`c ≥ 0x80`), bits 5..6 of `c` give the reset class.  The LZMA2 framer source
is not under src/. -/
def lzma2ResetClass (c : ℕ) : ℕ := c / 2 ^ 5 % 4

/-- Modelled from the spec: the reset flags `(resetState, newProps, resetDict)`
selected by the reset class: `0b00` no reset, `0b01` reset state, `0b10`
reset state + new props, `0b11` reset state + new props + reset dictionary. -/
def lzma2ResetFlags (c : ℕ) : Bool × Bool × Bool :=
  match lzma2ResetClass c with
  | 0 => (false, false, false)
  | 1 => (true, false, false)
  | 2 => (true, true, false)
  | _ => (true, true, true)

/-- Modelled from the spec: `unpackSize − 1` is carried in the low 5 bits of
the control byte followed by two size bytes (21 bits in total). -/
def lzma2UnpackSize (c b1 b2 : ℕ) : ℕ := c % 2 ^ 5 * 2 ^ 16 + b1 * 2 ^ 8 + b2 + 1

/-- C6: for every compressed-chunk control byte (`0x80 ≤ c < 0x100`) bits 5..6
select exactly one of the four reset classes, the class determines the reset
flags as listed in the spec, and the uncompressed size of a single compressed
chunk is between 1 byte and `2^21` bytes (2 MiB). -/
theorem lzma2_control_byte (c b1 b2 : ℕ)
    (hc1 : 128 ≤ c) (hc2 : c < 256) (hb1 : b1 < 256) (hb2 : b2 < 256) :
    lzma2ResetClass c < 4 ∧
    (lzma2ResetClass c = 0 ↔ lzma2ResetFlags c = (false, false, false)) ∧
    (lzma2ResetClass c = 1 ↔ lzma2ResetFlags c = (true, false, false)) ∧
    (lzma2ResetClass c = 2 ↔ lzma2ResetFlags c = (true, true, false)) ∧
    (lzma2ResetClass c = 3 ↔ lzma2ResetFlags c = (true, true, true)) ∧
    1 ≤ lzma2UnpackSize c b1 b2 ∧ lzma2UnpackSize c b1 b2 ≤ 2 ^ 21 := by
  have hun : 1 ≤ lzma2UnpackSize c b1 b2 ∧ lzma2UnpackSize c b1 b2 ≤ 2 ^ 21 := by
    unfold lzma2UnpackSize; omega
  have hcls : lzma2ResetClass c = 0 ∨ lzma2ResetClass c = 1 ∨
      lzma2ResetClass c = 2 ∨ lzma2ResetClass c = 3 := by
    unfold lzma2ResetClass; omega
  refine ⟨by unfold lzma2ResetClass; omega, ?_, ?_, ?_, ?_, hun.1, hun.2⟩ <;>
    (rcases hcls with h | h | h | h <;> simp [lzma2ResetFlags, h])

/-- C6 witness: control byte 0xE3 (class 0b11) with size bytes 0xFF 0xFF. -/
theorem lzma2_control_byte_witness :
    (128 ≤ 227 ∧ 227 < 256 ∧ 255 < 256 ∧ 255 < 256) ∧
    (lzma2ResetClass 227 < 4 ∧
     (lzma2ResetClass 227 = 0 ↔ lzma2ResetFlags 227 = (false, false, false)) ∧
     (lzma2ResetClass 227 = 1 ↔ lzma2ResetFlags 227 = (true, false, false)) ∧
     (lzma2ResetClass 227 = 2 ↔ lzma2ResetFlags 227 = (true, true, false)) ∧
     (lzma2ResetClass 227 = 3 ↔ lzma2ResetFlags 227 = (true, true, true)) ∧
     1 ≤ lzma2UnpackSize 227 255 255 ∧ lzma2UnpackSize 227 255 255 ≤ 2 ^ 21) :=
  ⟨⟨by norm_num, by norm_num, by norm_num, by norm_num⟩,
   lzma2_control_byte 227 255 255 (by norm_num) (by norm_num) (by norm_num) (by norm_num)⟩

/-! ## Distance-slot coding (spec §4.2 "Distance encoding") -/

/-- Modelled from the spec: number of extra distance bits below slot `s`
(`slot/2 − 1` for slots ≥ 4, none for the direct slots 0..3).  The LZMA
coder source is not under src/. -/
def slotFooterBits (s : ℕ) : ℕ := if s < 4 then 0 else s / 2 - 1

/-- Modelled from the spec: the first distance of slot `s`.  Slots bucket the
distances contiguously, slot `s` covering `2 ^ slotFooterBits s` of them;
slots 0..3 encode the distance directly, each covering a single value. -/
def slotBase : ℕ → ℕ
  | 0 => 0
  | s + 1 => slotBase s + 2 ^ slotFooterBits s

/-- Modelled from the spec: the set of distances that slot `s` covers. -/
def slotCovers (s : ℕ) : Finset ℕ := Finset.Ico (slotBase s) (slotBase (s + 1))

/-- Modelled from the spec sentence under test (C7): the number of bits the
claim says are emitted after the slot — for slots 4..13 a prefix bit plus
`(s/2 − 1)` direct uniform bits plus `(s/2 − 1)` SpecPos context bits; for
slots 14..63 `(s/2 − 1 − 4)` direct bits plus the 4 PosAlign bits. -/
def claimedSlotBits (s : ℕ) : ℕ :=
  if s < 4 then 0
  else if s < 14 then 1 + (s / 2 - 1) + (s / 2 - 1)
  else s / 2 - 1 - 4 + 4

/-- C7 counterexample: at slot 4 the claimed bit budget is 3 bits (a prefix
bit, one direct bit, one SpecPos bit), which distinguishes 8 values, while
slot 4 covers exactly the 2 distances {4, 5}; so the claimed bits are not
"exactly necessary" for the distances the slot covers. -/
theorem slot_bits_counterexample :
    ¬ (2 ^ claimedSlotBits 4 = (slotCovers 4).card) := by
  decide

/-- C7 (amended): slots 0..3 cover a single direct distance; for slots 4..13
the encoded tail is just the `(s/2 − 1)` SpecPos context bits (no extra
prefix or direct uniform bits); for slots 14..63 it is `(s/2 − 1 − 4)` direct
bits plus the 4 PosAlign bits — in each case `slotFooterBits s` bits, and the
map from bit values to `slotBase s + value` is a bijection onto exactly the
distances slot `s` covers, so the bits are sufficient and necessary. -/
theorem slot_bits_cover (s : ℕ) (h : s < 64) :
    (s < 4 → slotCovers s = {s}) ∧
    (4 ≤ s → s < 14 → slotFooterBits s = s / 2 - 1) ∧
    (14 ≤ s → slotFooterBits s = s / 2 - 1 - 4 + 4) ∧
    Finset.image (fun v => slotBase s + v) (Finset.range (2 ^ slotFooterBits s)) =
      slotCovers s ∧
    (slotCovers s).card = 2 ^ slotFooterBits s := by
  refine ⟨?_, ?_, ?_, ?_, ?_⟩
  · intro h4; interval_cases s <;> decide
  · intro h1 h2; simp only [slotFooterBits, if_neg (show ¬ s < 4 by omega)]
  · intro h1
    simp only [slotFooterBits, if_neg (show ¬ s < 4 by omega)]
    omega
  · have himg : Finset.image (fun v => slotBase s + v)
        (Finset.Ico 0 (2 ^ slotFooterBits s)) =
        Finset.Ico (slotBase s + 0) (slotBase s + 2 ^ slotFooterBits s) :=
      Finset.image_add_left_Ico _ _ _
    rw [Finset.range_eq_Ico, himg]
    simp [slotCovers, slotBase]
  · simp [slotCovers, slotBase, Nat.card_Ico]

/-- C7 witness: slot 14, whose tail is 2 direct bits plus the 4 PosAlign
bits, covering the 64 distances 128..191. -/
theorem slot_bits_cover_witness :
    (14 < 64) ∧
    ((14 < 4 → slotCovers 14 = {14}) ∧
     (4 ≤ 14 → 14 < 14 → slotFooterBits 14 = 14 / 2 - 1) ∧
     (14 ≤ 14 → slotFooterBits 14 = 14 / 2 - 1 - 4 + 4) ∧
     Finset.image (fun v => slotBase 14 + v) (Finset.range (2 ^ slotFooterBits 14)) =
       slotCovers 14 ∧
     (slotCovers 14).card = 2 ^ slotFooterBits 14) :=
  ⟨by norm_num, slot_bits_cover 14 (by norm_num)⟩

/-! ## Decoder match validation and window safety (spec §4.7) -/

/-- Modelled from the spec: the LZMA decoder's corrupt condition for a decoded
match distance — "`dist ≥ dictSize` or `dist > pos` before the dictionary is
full → Corrupt" (the dictionary is full once `pos ≥ dictSize`).  The decoder
source is not under src/. -/
def lzmaDistCorrupt (dictSize pos dist : ℕ) : Prop :=
  dictSize ≤ dist ∨ (pos < dictSize ∧ pos < dist)

instance (dictSize pos dist : ℕ) : Decidable (lzmaDistCorrupt dictSize pos dist) := by
  unfold lzmaDistCorrupt; infer_instance

/-- Modelled from the spec: the corrupt condition amended as the
counterexample forces — while the dictionary is not yet full, a distance
equal to the number of bytes produced so far must also be rejected
(`dist ≥ pos` in place of `dist > pos`). -/
def lzmaDistCorruptFixed (dictSize pos dist : ℕ) : Prop :=
  dictSize ≤ dist ∨ (pos < dictSize ∧ pos ≤ dist)

instance (dictSize pos dist : ℕ) : Decidable (lzmaDistCorruptFixed dictSize pos dist) := by
  unfold lzmaDistCorruptFixed; infer_instance

/-- Modelled from the spec: the logical window index read for the `k`-th byte
of a match copy — the decoder "copies `len` bytes from `window[pos − dist − 1]`
to `window[pos]`", byte-by-byte, both pointers advancing. -/
def matchSrcIndex (pos dist k : ℕ) : ℤ := (pos : ℤ) + k - dist - 1

/-- C4 counterexample: at the start of the stream (`pos = 0`) a decoded
distance `dist = 0` passes the spec's validation (`dist ≥ dictSize` is false
and `dist > pos` is false), yet the first byte copied reads logical window
index −1; so the validation as claimed does not prevent an out-of-range
read. -/
theorem window_safety_counterexample :
    ¬ lzmaDistCorrupt 4096 0 0 ∧ matchSrcIndex 0 0 0 < 0 :=
  ⟨by decide, by decide⟩

/-- C4 (amended): with the not-yet-full check strengthened to `dist ≥ pos`
(equivalently, accepting only `dist < pos`), every byte of an accepted match
copy reads a logical index that is nonnegative, within the `dictSize` most
recent positions, and strictly before the write position — attempted
violations are rejected as Corrupt by the validation instead. -/
theorem window_safety (dictSize pos dist len k : ℕ)
    (hk : k < len) (hok : ¬ lzmaDistCorruptFixed dictSize pos dist) :
    0 ≤ matchSrcIndex pos dist k ∧
    (pos : ℤ) + k - dictSize ≤ matchSrcIndex pos dist k ∧
    matchSrcIndex pos dist k < (pos : ℤ) + k := by
  unfold lzmaDistCorruptFixed at hok
  unfold matchSrcIndex
  omega

/-- C4 witness: dictSize 4096, three-byte copy at `pos = 5` with `dist = 2`,
second byte. -/
theorem window_safety_witness :
    (1 < 3 ∧ ¬ lzmaDistCorruptFixed 4096 5 2) ∧
    (0 ≤ matchSrcIndex 5 2 1 ∧
     ((5 : ℕ) : ℤ) + (1 : ℕ) - (4096 : ℕ) ≤ matchSrcIndex 5 2 1 ∧
     matchSrcIndex 5 2 1 < ((5 : ℕ) : ℤ) + (1 : ℕ)) :=
  ⟨⟨by norm_num, by decide⟩, window_safety 4096 5 2 3 1 (by norm_num) (by decide)⟩

/-! ## Range coder (spec §4.1) -/

/-- Modelled from the spec: `kTopValue = 2^24`, the range-coder normalization
threshold.  The range coder source is not under src/. -/
def kTopValue : ℕ := 2 ^ 24

/-- Modelled from the spec: range-coder encoder state — `low` (64-bit
accumulator), `range` (32-bit), the deferred-emission `cache` byte with its
`cacheSize` counter, and the bytes handed to the byte sink so far. -/
structure RCEncState where
  low : ℕ
  range : ℕ
  cache : ℕ
  cacheSize : ℕ
  out : List ℕ

/-- Modelled from the spec: byte emission with deferred carry — when the
shifted-out byte is decided (the low 32 bits are below `0xFF000000`, or a
carry has run out of bit 32), the cache byte and the pending run of `0xFF`
bytes are flushed with the carry applied; otherwise the pending run grows by
one.  Afterwards `low` keeps its low 24 bits, shifted up by 8. -/
def rcShiftLow (s : RCEncState) : RCEncState :=
  if s.low % 2 ^ 32 < 4278190080 ∨ s.low / 2 ^ 32 ≠ 0 then
    { low := s.low % 2 ^ 24 * 2 ^ 8
      range := s.range
      cache := s.low / 2 ^ 24 % 256
      cacheSize := 1
      out := s.out ++ ((s.cache + s.low / 2 ^ 32) % 256 ::
        List.replicate (s.cacheSize - 1) ((255 + s.low / 2 ^ 32) % 256)) }
  else
    { s with cacheSize := s.cacheSize + 1, low := s.low % 2 ^ 24 * 2 ^ 8 }

/-- Modelled from the spec: encoder normalization — while `range < 2^24`,
shift a byte out and scale `range` by `2^8`. -/
def rcNormEnc (s : RCEncState) : RCEncState :=
  if h : 0 < s.range ∧ s.range < kTopValue then
    rcNormEnc { rcShiftLow s with range := s.range * 2 ^ 8 }
  else s
termination_by kTopValue - s.range
decreasing_by simp only [kTopValue] at h ⊢; simp; omega

/-- Modelled from the spec: `encodeBit(probRef, bit)` — split `range`
proportionally to `prob/2048` via `bound = (range >> 11) * prob`, take the
lower part on bit 0 and the upper part on bit 1, then normalize.  (The
probability itself is updated by `probUpdate0` / `probUpdate1`.) -/
def rcEncodeBit (prob : ℕ) (bit : Bool) (s : RCEncState) : RCEncState :=
  rcNormEnc (if bit then
    { s with low := s.low + s.range / 2 ^ 11 * prob,
             range := s.range - s.range / 2 ^ 11 * prob }
  else
    { s with range := s.range / 2 ^ 11 * prob })

/-- Modelled from the spec: one step of `encodeDirectBits` — encode one bit
uniformly (no probability): halve `range`, add the half to `low` on bit 1,
then normalize. -/
def rcEncodeDirectBit (bit : Bool) (s : RCEncState) : RCEncState :=
  rcNormEnc { s with range := s.range / 2,
                     low := s.low + if bit then s.range / 2 else 0 }

/-- Modelled from the spec: range-coder decoder state — `range` and `code`
(32-bit), the remaining input bytes, and the corruption flag. -/
structure RCDecState where
  range : ℕ
  code : ℕ
  input : List ℕ
  corrupt : Bool

/-- Modelled from the spec: pull one byte from the byte source; a short read
is flagged as corruption, not an exception. -/
def rcDecNextByte (s : RCDecState) : ℕ × RCDecState :=
  match s.input with
  | [] => (0, { s with corrupt := true })
  | b :: rest => (b, { s with input := rest })

/-- Modelled from the spec: decoder normalization — while `range < 2^24`,
shift an input byte into `code` (32-bit) and scale `range` by `2^8`. -/
def rcNormDec (s : RCDecState) : RCDecState :=
  if h : 0 < s.range ∧ s.range < kTopValue then
    rcNormDec { (rcDecNextByte s).2 with
                range := s.range * 2 ^ 8,
                code := s.code * 2 ^ 8 % 2 ^ 32 + (rcDecNextByte s).1 }
  else s
termination_by kTopValue - s.range
decreasing_by simp only [kTopValue] at h ⊢; simp; omega

/-- Modelled from the spec: `decodeBit(probRef)` — compare `code` against
`bound = (range >> 11) * prob`, keep the matching part of `range`, then
normalize. -/
def rcDecodeBit (prob : ℕ) (s : RCDecState) : Bool × RCDecState :=
  if s.code < s.range / 2 ^ 11 * prob then
    (false, rcNormDec { s with range := s.range / 2 ^ 11 * prob })
  else
    (true, rcNormDec { s with range := s.range - s.range / 2 ^ 11 * prob,
                              code := s.code - s.range / 2 ^ 11 * prob })

/-- Modelled from the spec: one step of `decodeDirectBits` — halve `range`,
compare `code` against the half, then normalize. -/
def rcDecodeDirectBit (s : RCDecState) : Bool × RCDecState :=
  if s.code < s.range / 2 then
    (false, rcNormDec { s with range := s.range / 2 })
  else
    (true, rcNormDec { s with range := s.range / 2, code := s.code - s.range / 2 })

theorem rcNormEnc_range (s : RCEncState) :
    0 < s.range → s.range < 2 ^ 32 →
    kTopValue ≤ (rcNormEnc s).range ∧ (rcNormEnc s).range < 2 ^ 32 := by
  induction s using rcNormEnc.induct with
  | case1 s h ih =>
    intro h0 h1
    rw [rcNormEnc, dif_pos h]
    refine ih ?_ ?_ <;> simp only [kTopValue] at h ⊢ <;> simp <;> omega
  | case2 s h =>
    intro h0 h1
    rw [rcNormEnc, dif_neg h]
    simp only [kTopValue] at h ⊢
    omega

theorem rcNormDec_range (s : RCDecState) :
    0 < s.range → s.range < 2 ^ 32 →
    kTopValue ≤ (rcNormDec s).range ∧ (rcNormDec s).range < 2 ^ 32 := by
  induction s using rcNormDec.induct with
  | case1 s h ih =>
    intro h0 h1
    rw [rcNormDec, dif_pos h]
    refine ih ?_ ?_ <;> simp only [kTopValue] at h ⊢ <;> simp <;> omega
  | case2 s h =>
    intro h0 h1
    rw [rcNormDec, dif_neg h]
    simp only [kTopValue] at h ⊢
    omega

theorem rcBound_split (range prob : ℕ) (h0 : kTopValue ≤ range) (h1 : range < 2 ^ 32)
    (hp0 : 0 < prob) (hp1 : prob < 2 ^ 11) :
    0 < range / 2 ^ 11 * prob ∧ range / 2 ^ 11 * prob < range := by
  have hq0 : 2 ^ 13 ≤ range / 2 ^ 11 := by
    simp only [kTopValue] at h0
    omega
  have hql : range / 2 ^ 11 * 2 ^ 11 ≤ range := Nat.div_mul_le_self range (2 ^ 11)
  have hup : range / 2 ^ 11 * prob ≤ range / 2 ^ 11 * (2 ^ 11 - 1) :=
    Nat.mul_le_mul_left _ (by omega)
  have hlo : range / 2 ^ 11 * 1 ≤ range / 2 ^ 11 * prob :=
    Nat.mul_le_mul_left _ hp0
  omega

/-- C2: the range-coder invariant — starting from any 32-bit `range` with
`range ≥ 2^24` and any live probability (`0 < prob < 2^11`), each of the four
symbol-coding operations (encoder bit, decoder bit, encoder direct bit,
decoder direct bit) normalizes `range` back into `[2^24, 2^32)`: whenever the
proportional split drops `range` below `2^24`, the normalization shifts
bytes out (encoder) or in (decoder) until the bound is restored. -/
theorem range_coder_invariant (prob : ℕ) (bit : Bool) (se : RCEncState) (sd : RCDecState)
    (hp0 : 0 < prob) (hp1 : prob < 2 ^ 11)
    (he0 : kTopValue ≤ se.range) (he1 : se.range < 2 ^ 32)
    (hd0 : kTopValue ≤ sd.range) (hd1 : sd.range < 2 ^ 32) :
    (kTopValue ≤ (rcEncodeBit prob bit se).range ∧ (rcEncodeBit prob bit se).range < 2 ^ 32) ∧
    (kTopValue ≤ (rcDecodeBit prob sd).2.range ∧ (rcDecodeBit prob sd).2.range < 2 ^ 32) ∧
    (kTopValue ≤ (rcEncodeDirectBit bit se).range ∧ (rcEncodeDirectBit bit se).range < 2 ^ 32) ∧
    (kTopValue ≤ (rcDecodeDirectBit sd).2.range ∧ (rcDecodeDirectBit sd).2.range < 2 ^ 32) := by
  have hbe := rcBound_split se.range prob he0 he1 hp0 hp1
  have hbd := rcBound_split sd.range prob hd0 hd1 hp0 hp1
  have he24 : 2 ^ 24 ≤ se.range := by simpa [kTopValue] using he0
  have hd24 : 2 ^ 24 ≤ sd.range := by simpa [kTopValue] using hd0
  refine ⟨?_, ?_, ?_, ?_⟩
  · unfold rcEncodeBit
    cases bit
    · exact rcNormEnc_range _
        (show 0 < se.range / 2 ^ 11 * prob by omega)
        (show se.range / 2 ^ 11 * prob < 2 ^ 32 by omega)
    · exact rcNormEnc_range _
        (show 0 < se.range - se.range / 2 ^ 11 * prob by omega)
        (show se.range - se.range / 2 ^ 11 * prob < 2 ^ 32 by omega)
  · unfold rcDecodeBit
    by_cases hc : sd.code < sd.range / 2 ^ 11 * prob
    · rw [if_pos hc]
      exact rcNormDec_range _
        (show 0 < sd.range / 2 ^ 11 * prob by omega)
        (show sd.range / 2 ^ 11 * prob < 2 ^ 32 by omega)
    · rw [if_neg hc]
      exact rcNormDec_range _
        (show 0 < sd.range - sd.range / 2 ^ 11 * prob by omega)
        (show sd.range - sd.range / 2 ^ 11 * prob < 2 ^ 32 by omega)
  · unfold rcEncodeDirectBit
    exact rcNormEnc_range _
      (show 0 < se.range / 2 by omega)
      (show se.range / 2 < 2 ^ 32 by omega)
  · unfold rcDecodeDirectBit
    by_cases hc : sd.code < sd.range / 2
    · rw [if_pos hc]
      exact rcNormDec_range _
        (show 0 < sd.range / 2 by omega)
        (show sd.range / 2 < 2 ^ 32 by omega)
    · rw [if_neg hc]
      exact rcNormDec_range _
        (show 0 < sd.range / 2 by omega)
        (show sd.range / 2 < 2 ^ 32 by omega)

/-- C2 witness: a fresh encoder and a fresh decoder (`range = 2^32 − 1`, as
set by `init`) coding one bit with the initial probability 1024. -/
theorem range_coder_invariant_witness :
    (0 < 1024 ∧ 1024 < 2 ^ 11 ∧
     kTopValue ≤ (RCEncState.mk 0 4294967295 0 1 []).range ∧
     (RCEncState.mk 0 4294967295 0 1 []).range < 2 ^ 32 ∧
     kTopValue ≤ (RCDecState.mk 4294967295 77 [1, 2, 3] false).range ∧
     (RCDecState.mk 4294967295 77 [1, 2, 3] false).range < 2 ^ 32) ∧
    ((kTopValue ≤ (rcEncodeBit 1024 true (RCEncState.mk 0 4294967295 0 1 [])).range ∧
      (rcEncodeBit 1024 true (RCEncState.mk 0 4294967295 0 1 [])).range < 2 ^ 32) ∧
     (kTopValue ≤ (rcDecodeBit 1024 (RCDecState.mk 4294967295 77 [1, 2, 3] false)).2.range ∧
      (rcDecodeBit 1024 (RCDecState.mk 4294967295 77 [1, 2, 3] false)).2.range < 2 ^ 32) ∧
     (kTopValue ≤ (rcEncodeDirectBit true (RCEncState.mk 0 4294967295 0 1 [])).range ∧
      (rcEncodeDirectBit true (RCEncState.mk 0 4294967295 0 1 [])).range < 2 ^ 32) ∧
     (kTopValue ≤ (rcDecodeDirectBit (RCDecState.mk 4294967295 77 [1, 2, 3] false)).2.range ∧
      (rcDecodeDirectBit (RCDecState.mk 4294967295 77 [1, 2, 3] false)).2.range < 2 ^ 32)) :=
  ⟨⟨by norm_num, by norm_num, by norm_num [kTopValue], by norm_num,
    by norm_num [kTopValue], by norm_num⟩,
   range_coder_invariant 1024 true (RCEncState.mk 0 4294967295 0 1 [])
     (RCDecState.mk 4294967295 77 [1, 2, 3] false)
     (by norm_num) (by norm_num) (by norm_num [kTopValue]) (by norm_num)
     (by norm_num [kTopValue]) (by norm_num)⟩

/-! ## Allocator (src/C/Alloc.c) -/

/-- Events recorded against the underlying C allocator: calls to `malloc`,
`realloc` and `free`. -/
inductive AllocEvent where
  | mallocCall (size : ℕ)
  | reallocCall (addr size : ℕ)
  | freeCall (addr : ℕ)
deriving DecidableEq

/-- The underlying C allocator, abstracted as the addresses that `malloc`
and `realloc` return (address 0 models NULL). -/
structure CAllocator where
  mallocRes : ℕ → ℕ
  reallocRes : ℕ → ℕ → ℕ

/-- `MyAlloc` (src/C/Alloc.c lines 162-179, non-debug branch): NULL for a
zero size without touching `malloc`, otherwise `malloc(size)`.  Results pair
the returned address with the underlying allocator calls made. -/
def MyAlloc (A : CAllocator) (size : ℕ) : ℕ × List AllocEvent :=
  if size = 0 then (0, [])
  else (A.mallocRes size, [AllocEvent.mallocCall size])

/-- `MyFree` (src/C/Alloc.c lines 181-186): unconditionally `free(address)`. -/
def MyFree (address : ℕ) : List AllocEvent := [AllocEvent.freeCall address]

/-- `MyRealloc` (src/C/Alloc.c lines 188-208, non-debug branch): a zero size
frees the address and returns NULL, otherwise `realloc(address, size)`. -/
def MyRealloc (A : CAllocator) (address size : ℕ) : ℕ × List AllocEvent :=
  if size = 0 then (0, MyFree address)
  else (A.reallocRes address size, [AllocEvent.reallocCall address size])

/-- C8: `MyAlloc(0)` returns NULL without calling `malloc`; `MyRealloc(a, 0)`
frees `a` and returns NULL, exactly as `MyFree` would; for a nonzero size
both defer to `malloc`/`realloc`, so a NULL result for a nonzero size means
exactly that the underlying allocation failed, and a zero-size request is
never a live allocation. -/
theorem myAlloc_contract (A : CAllocator) (address size : ℕ) (h : 0 < size) :
    MyAlloc A 0 = (0, []) ∧
    MyRealloc A address 0 = (0, MyFree address) ∧
    MyAlloc A size = (A.mallocRes size, [AllocEvent.mallocCall size]) ∧
    MyRealloc A address size =
      (A.reallocRes address size, [AllocEvent.reallocCall address size]) ∧
    ((MyAlloc A size).1 = 0 ↔ A.mallocRes size = 0) := by
  unfold MyAlloc MyRealloc
  simp [h.ne']

/-- A concrete underlying allocator used by the witnesses. -/
def oracleAllocator : CAllocator :=
  { mallocRes := fun size => 2 ^ 12 + size
    reallocRes := fun address size => address + size }

/-- C8 witness: address 7, size 3 against the concrete allocator. -/
theorem myAlloc_contract_witness :
    (0 < 3) ∧
    (MyAlloc oracleAllocator 0 = (0, []) ∧
     MyRealloc oracleAllocator 7 0 = (0, MyFree 7) ∧
     MyAlloc oracleAllocator 3 = (oracleAllocator.mallocRes 3, [AllocEvent.mallocCall 3]) ∧
     MyRealloc oracleAllocator 7 3 =
       (oracleAllocator.reallocRes 7 3, [AllocEvent.reallocCall 7 3]) ∧
     ((MyAlloc oracleAllocator 3).1 = 0 ↔ oracleAllocator.mallocRes 3 = 0)) :=
  ⟨by norm_num, myAlloc_contract oracleAllocator 7 3 (by norm_num)⟩

/-- Clearing the low `k` bits with the mask `~(2^k − 1)` rounds a 64-bit
value down to a multiple of `2^k`. -/
theorem land_block_align (x k : ℕ) (hx : x < 2 ^ 64) (hk : k ≤ 64) :
    x &&& (2 ^ 64 - 2 ^ k) = x - x % 2 ^ k := by
  have hmask : 2 ^ 64 - 2 ^ k = (2 ^ (64 - k) - 1) <<< k := by
    rw [Nat.shiftLeft_eq, Nat.sub_mul, one_mul, ← pow_add]
    congr 2
    omega
  have hrhs : x - x % 2 ^ k = x >>> k <<< k := by
    rw [Nat.shiftRight_eq_div_pow, Nat.shiftLeft_eq]
    have h1 := Nat.div_add_mod x (2 ^ k)
    rw [mul_comm] at h1
    omega
  rw [hmask, hrhs]
  apply Nat.eq_of_testBit_eq
  intro i
  rw [Nat.testBit_land, Nat.testBit_shiftLeft, Nat.testBit_shiftLeft,
    Nat.testBit_shiftRight, Nat.testBit_two_pow_sub_one]
  by_cases hki : k ≤ i
  · by_cases hi : i < 64
    · have : k + (i - k) = i := by omega
      simp [hki, this, show i - k < 64 - k by omega]
    · have hxi : x.testBit i = false :=
        Nat.testBit_lt_two_pow (lt_of_lt_of_le hx (Nat.pow_le_pow_right (by norm_num) (by omega)))
      have : k + (i - k) = i := by omega
      simp [hki, this, hxi, show ¬ (i - k < 64 - k) by omega]
  · simp [hki]

/-- `ALLOC_ALIGN_SIZE` (src/C/Alloc.c line 387): `(size_t)1 << 7`. -/
def ALLOC_ALIGN_SIZE : ℕ := 2 ^ 7

/-- `MY_ALIGN_PTR_DOWN(p, align)` (src/C/Alloc.c line 364):
`p & ~((uintptr)align − 1)` on 64-bit addresses; for a power-of-two `align`
the mask is `2^64 − align`. -/
def MY_ALIGN_PTR_DOWN (p align : ℕ) : ℕ := p &&& (2 ^ 64 - align)

/-- `MY_ALIGN_PTR_UP_PLUS(p, align)` (src/C/Alloc.c line 377), with
`ADJUST_ALLOC_SIZE = 0`: align `p + align` downwards (64-bit pointer
arithmetic). -/
def MY_ALIGN_PTR_UP_PLUS (p align : ℕ) : ℕ :=
  MY_ALIGN_PTR_DOWN ((p + align) % 2 ^ 64) align

/-- `z7_AlignedAlloc` (src/C/Alloc.c lines 389-427, offset-allocator path,
`USE_posix_memalign` undefined): request `newSize = size + ALLOC_ALIGN_SIZE`
from `MyAlloc`, returning NULL when the `size_t` addition wraps
(`newSize < size`) or when `MyAlloc` fails; otherwise return the aligned
address inside the block.  (The back-pointer store at `pAligned[-1]` stays
inside the block and is read back by `z7_AlignedFree`.) -/
def z7_AlignedAlloc (A : CAllocator) (size : ℕ) : ℕ × List AllocEvent :=
  if (size + ALLOC_ALIGN_SIZE) % 2 ^ 64 < size then (0, [])
  else
    match MyAlloc A ((size + ALLOC_ALIGN_SIZE) % 2 ^ 64) with
    | (0, tr) => (0, tr)
    | (p, tr) => (MY_ALIGN_PTR_UP_PLUS p ALLOC_ALIGN_SIZE, tr)

/-- `z7_AlignedFree` (src/C/Alloc.c lines 430-438, offset path): NULL is a
no-op; otherwise free the base pointer stored in the word just below the
aligned address (read from memory `mem` at `address − 8`). -/
def z7_AlignedFree (mem : ℕ → ℕ) (address : ℕ) : List AllocEvent :=
  if address = 0 then [] else [AllocEvent.freeCall (mem (address - 8))]

theorem align_up_plus_multiple (p : ℕ) :
    MY_ALIGN_PTR_UP_PLUS p ALLOC_ALIGN_SIZE % ALLOC_ALIGN_SIZE = 0 := by
  unfold MY_ALIGN_PTR_UP_PLUS MY_ALIGN_PTR_DOWN ALLOC_ALIGN_SIZE
  rw [land_block_align _ 7 (Nat.mod_lt _ (by norm_num)) (by norm_num)]
  omega

/-- C9: `z7_AlignedAlloc` returns NULL or an address that is a multiple of
`ALLOC_ALIGN_SIZE = 128`; when `size + 128` wraps around `size_t`
(`newSize < size`) it returns NULL without calling the underlying allocator
at all; and `z7_AlignedFree(NULL)` performs no call. -/
theorem aligned_alloc_contract (A : CAllocator) (mem : ℕ → ℕ) (size : ℕ)
    (hsz : size < 2 ^ 64) :
    ((z7_AlignedAlloc A size).1 = 0 ∨
      (z7_AlignedAlloc A size).1 % ALLOC_ALIGN_SIZE = 0) ∧
    ((size + ALLOC_ALIGN_SIZE) % 2 ^ 64 < size → z7_AlignedAlloc A size = (0, [])) ∧
    z7_AlignedFree mem 0 = [] := by
  refine ⟨?_, ?_, by simp [z7_AlignedFree]⟩
  · unfold z7_AlignedAlloc
    by_cases hov : (size + ALLOC_ALIGN_SIZE) % 2 ^ 64 < size
    · rw [if_pos hov]
      exact Or.inl rfl
    · rw [if_neg hov]
      rcases hma : MyAlloc A ((size + ALLOC_ALIGN_SIZE) % 2 ^ 64) with ⟨p, tr⟩
      cases p with
      | zero => exact Or.inl rfl
      | succ q => exact Or.inr (align_up_plus_multiple (q + 1))
  · intro hov
    unfold z7_AlignedAlloc
    rw [if_pos hov]

/-- C9 witness: size 300 against the concrete allocator. -/
theorem aligned_alloc_contract_witness :
    (300 < 2 ^ 64) ∧
    (((z7_AlignedAlloc oracleAllocator 300).1 = 0 ∨
      (z7_AlignedAlloc oracleAllocator 300).1 % ALLOC_ALIGN_SIZE = 0) ∧
     ((300 + ALLOC_ALIGN_SIZE) % 2 ^ 64 < 300 →
       z7_AlignedAlloc oracleAllocator 300 = (0, [])) ∧
     z7_AlignedFree (fun _ => 0) 0 = []) :=
  ⟨by norm_num, aligned_alloc_contract oracleAllocator (fun _ => 0) 300 (by norm_num)⟩

theorem land_even_pred (m : ℕ) (hm : 0 < m) :
    2 * m &&& (2 * m - 1) = 2 * (m &&& (m - 1)) := by
  apply Nat.eq_of_testBit_eq
  intro i
  cases i with
  | zero =>
    rw [Nat.testBit_land]
    simp [Nat.testBit_zero, Nat.mul_mod_right]
  | succ i =>
    have e1 : 2 * m / 2 = m := by omega
    have e2 : (2 * m - 1) / 2 = m - 1 := by omega
    have e3 : 2 * (m &&& (m - 1)) / 2 = m &&& (m - 1) := by omega
    rw [Nat.testBit_land]
    simp only [Nat.testBit_succ]
    rw [e1, e2, e3, Nat.testBit_land]

theorem land_odd_pred (m : ℕ) : (2 * m + 1) &&& (2 * m) = 2 * m := by
  apply Nat.eq_of_testBit_eq
  intro i
  cases i with
  | zero =>
    rw [Nat.testBit_land]
    simp [Nat.testBit_zero, Nat.mul_mod_right]
  | succ i =>
    have e1 : (2 * m + 1) / 2 = m := by omega
    have e2 : 2 * m / 2 = m := by omega
    rw [Nat.testBit_land]
    simp only [Nat.testBit_succ]
    rw [e1, e2, Bool.and_self]

/-- A nonzero value passing the source's power-of-two test
`(size & (size − 1)) == 0` is a power of two. -/
theorem pow_two_of_land_pred_zero : ∀ n, n ≠ 0 → n &&& (n - 1) = 0 → ∃ k, n = 2 ^ k := by
  intro n
  induction n using Nat.strong_induction_on with
  | _ n ih =>
    intro hn hl
    rcases Nat.even_or_odd n with he | ho
    · obtain ⟨m, hm⟩ := he
      have hm' : n = 2 * m := by omega
      subst hm'
      have hm0 : 0 < m := by omega
      rw [land_even_pred m hm0] at hl
      obtain ⟨k, hk⟩ := ih m (by omega) (by omega) (by omega)
      exact ⟨k + 1, by rw [pow_succ, hk]; ring⟩
    · obtain ⟨m, hm⟩ := ho
      subst hm
      simp only [Nat.add_sub_cancel] at hl
      rw [land_odd_pred m] at hl
      exact ⟨0, by omega⟩

/-- Initial value of the file-scope global `g_LargePageSize`
(src/C/Alloc.c line 250). -/
def g_LargePageSize0 : ℕ := 0

/-- `SetLargePageSize` (src/C/Alloc.c lines 253-272): the value of
`g_LargePageSize` after the call, given its previous value and the
OS-reported large-page minimum `size`; the global is assigned only when
`size` is nonzero and passes `(size & (size − 1)) == 0`. -/
def SetLargePageSize (g size : ℕ) : ℕ :=
  if size = 0 ∨ size &&& (size - 1) ≠ 0 then g else size

/-- `BigAlloc`'s large-page rounding (src/C/Alloc.c lines 285-290):
`ps = g_LargePageSize; ps--; size2 = (size + ps) & ~ps` in 64-bit `size_t`
arithmetic. -/
def bigAllocSize2 (g size : ℕ) : ℕ :=
  (size + (g - 1)) % 2 ^ 64 &&& (2 ^ 64 - 1 - (g - 1))

/-- C10: starting from its initial value 0, `g_LargePageSize` is always
either 0 or a power of two after any sequence of `SetLargePageSize` calls —
only a nonzero power-of-two OS report is ever assigned; and for a
power-of-two page size `2^k` (the source accepts at most `2^30`),
`BigAlloc`'s `size2 = (size + ps) & ~ps` is exactly `size` rounded up to a
multiple of `2^k`. -/
theorem large_page_size_invariant (sizes : List ℕ) (k size : ℕ)
    (hk : k ≤ 30) (hsize : size + 2 ^ k ≤ 2 ^ 64) :
    (List.foldl SetLargePageSize g_LargePageSize0 sizes = 0 ∨
      ∃ j, List.foldl SetLargePageSize g_LargePageSize0 sizes = 2 ^ j) ∧
    size ≤ bigAllocSize2 (2 ^ k) size ∧
    bigAllocSize2 (2 ^ k) size % 2 ^ k = 0 ∧
    bigAllocSize2 (2 ^ k) size < size + 2 ^ k := by
  have hppos : 0 < 2 ^ k := Nat.two_pow_pos k
  constructor
  · have hstep : ∀ g s, (g = 0 ∨ ∃ j, g = 2 ^ j) →
        (SetLargePageSize g s = 0 ∨ ∃ j, SetLargePageSize g s = 2 ^ j) := by
      intro g s hg
      unfold SetLargePageSize
      by_cases hc : s = 0 ∨ s &&& (s - 1) ≠ 0
      · rw [if_pos hc]; exact hg
      · rw [if_neg hc]
        push_neg at hc
        exact Or.inr (pow_two_of_land_pred_zero s hc.1 hc.2)
    have hfold : ∀ (l : List ℕ) (g : ℕ), (g = 0 ∨ ∃ j, g = 2 ^ j) →
        (List.foldl SetLargePageSize g l = 0 ∨
         ∃ j, List.foldl SetLargePageSize g l = 2 ^ j) := by
      intro l
      induction l with
      | nil => intro g hg; exact hg
      | cons s rest ih =>
        intro g hg
        exact ih (SetLargePageSize g s) (hstep g s hg)
    exact hfold sizes g_LargePageSize0 (Or.inl rfl)
  · have hmask : 2 ^ 64 - 1 - (2 ^ k - 1) = 2 ^ 64 - 2 ^ k := by
      have : 2 ^ k ≤ 2 ^ 64 := Nat.pow_le_pow_right (by norm_num) (by omega)
      omega
    have hnomod : (size + (2 ^ k - 1)) % 2 ^ 64 = size + (2 ^ k - 1) :=
      Nat.mod_eq_of_lt (by omega)
    have heq : bigAllocSize2 (2 ^ k) size =
        size + (2 ^ k - 1) - (size + (2 ^ k - 1)) % 2 ^ k := by
      unfold bigAllocSize2
      rw [hmask, hnomod, land_block_align _ k (by omega) (by omega)]
    have h1 := Nat.div_add_mod (size + (2 ^ k - 1)) (2 ^ k)
    rw [mul_comm] at h1
    have hmlt : (size + (2 ^ k - 1)) % 2 ^ k < 2 ^ k := Nat.mod_lt _ hppos
    refine ⟨by omega, ?_, by omega⟩
    rw [heq, show size + (2 ^ k - 1) - (size + (2 ^ k - 1)) % 2 ^ k =
      (size + (2 ^ k - 1)) / 2 ^ k * 2 ^ k from by omega, Nat.mul_mod_left]

/-- C10 witness: reports [5, 8] (5 rejected, 8 accepted), page size `2^3`,
request 20 rounded up to 24. -/
theorem large_page_size_invariant_witness :
    (3 ≤ 30 ∧ 20 + 2 ^ 3 ≤ 2 ^ 64) ∧
    ((List.foldl SetLargePageSize g_LargePageSize0 [5, 8] = 0 ∨
      ∃ j, List.foldl SetLargePageSize g_LargePageSize0 [5, 8] = 2 ^ j) ∧
     20 ≤ bigAllocSize2 (2 ^ 3) 20 ∧
     bigAllocSize2 (2 ^ 3) 20 % 2 ^ 3 = 0 ∧
     bigAllocSize2 (2 ^ 3) 20 < 20 + 2 ^ 3) :=
  ⟨⟨by norm_num, by norm_num⟩, large_page_size_invariant [5, 8] 3 20 (by norm_num) (by norm_num)⟩

/-! ## Range-coder round trip (spec §4.1, §8 property 1)

The development below proves that the range-coder decoder reproduces,
byte-exactly, every bit sequence the encoder coded, including the deferred
carry propagation through the cache/0xFF-run. -/

/-- Value of a byte list read as a big-endian base-256 number. -/
def bytesVal : List ℕ → ℕ
  | [] => 0
  | b :: rest => b * 256 ^ rest.length + bytesVal rest

theorem bytesVal_append (a b : List ℕ) :
    bytesVal (a ++ b) = bytesVal a * 256 ^ b.length + bytesVal b := by
  induction a with
  | nil => simp [bytesVal]
  | cons x rest ih =>
    show bytesVal (x :: (rest ++ b)) = _
    rw [bytesVal, ih, bytesVal, List.length_append]
    ring

theorem bytesVal_snoc (l : List ℕ) (x : ℕ) :
    bytesVal (l ++ [x]) = bytesVal l * 256 + x := by
  rw [bytesVal_append]
  simp [bytesVal]

theorem bytesVal_replicate_255 (n : ℕ) :
    bytesVal (List.replicate n 255) = 256 ^ n - 1 := by
  induction n with
  | zero => simp [bytesVal]
  | succ n ih =>
    simp only [List.replicate_succ, bytesVal, List.length_replicate, ih, pow_succ]
    have : 0 < (256 : ℕ) ^ n := Nat.pos_pow_of_pos n (by norm_num)
    omega

theorem bytesVal_lt (l : List ℕ) (h : ∀ b ∈ l, b < 256) :
    bytesVal l < 256 ^ l.length := by
  induction l with
  | nil => simp [bytesVal]
  | cons x rest ih =>
    have hx : x < 256 := h x (by simp)
    have hr : bytesVal rest < 256 ^ rest.length := ih (fun b hb => h b (by simp [hb]))
    simp only [bytesVal, List.length_cons, pow_succ]
    have hx' : x * 256 ^ rest.length ≤ 255 * 256 ^ rest.length :=
      Nat.mul_le_mul_right _ (by omega)
    omega

/-- The pending bytes of the encoder: the cache byte followed by the
`cacheSize − 1` deferred `0xFF` bytes. -/
def pendingRun (s : RCEncState) : List ℕ :=
  s.cache :: List.replicate (s.cacheSize - 1) 255

/-- The value accumulated by the encoder so far: emitted bytes, pending
bytes, and the 32-bit `low` register, as one big number. -/
def absLow (s : RCEncState) : ℕ :=
  bytesVal (s.out ++ pendingRun s) * 2 ^ 32 + s.low

/-- The range-coder encoder invariant: at least one pending byte, all bytes
in range, `low + range` within `2^33` (so at most one carry is ever
pending), and — the key fact that makes carry propagation sound — when the
cache byte is `0xFF` the whole working interval fits below the next carry
boundary, so no further carry can reach an already-flushed byte. -/
structure RCInv (s : RCEncState) : Prop where
  cacheSize_pos : 1 ≤ s.cacheSize
  cache_lt : s.cache < 256
  out_lt : ∀ b ∈ s.out, b < 256
  range_pos : 0 < s.range
  range_lt : s.range < 2 ^ 32
  low_range : s.low + s.range ≤ 2 ^ 33
  cache_ff : s.cache = 255 → s.low + s.range ≤ 2 ^ 32

theorem bytesVal_carry (o : List ℕ) (c n : ℕ) :
    bytesVal (o ++ (c + 1) :: List.replicate n 0) =
      bytesVal (o ++ c :: List.replicate n 255) + 1 := by
  have hz : bytesVal (List.replicate n (0 : ℕ)) = 0 := by
    induction n with
    | zero => simp [bytesVal]
    | succ m ihm => simpa [List.replicate_succ, bytesVal] using ihm
  rw [bytesVal_append, bytesVal_append]
  simp only [bytesVal, List.length_cons, List.length_replicate, hz,
    bytesVal_replicate_255]
  have hp : 0 < (256 : ℕ) ^ n := Nat.pos_pow_of_pos n (by norm_num)
  have hd : (c + 1) * 256 ^ n = c * 256 ^ n + 256 ^ n := by ring
  omega

theorem bytesVal_run_snoc (o : List ℕ) (c n : ℕ) :
    bytesVal (o ++ c :: List.replicate (n + 1) 255) =
      bytesVal (o ++ c :: List.replicate n 255) * 256 + 255 := by
  have hshape : o ++ c :: List.replicate (n + 1) 255 =
      (o ++ c :: List.replicate n 255) ++ [255] := by
    simp [List.replicate_succ' n (255 : ℕ)]
  rw [hshape, bytesVal_snoc]

theorem absLow_shiftLow (s : RCEncState) (hc1 : 1 ≤ s.cacheSize)
    (hc2 : s.cache < 256) (hlow33 : s.low < 2 ^ 33)
    (hff : s.cache = 255 → s.low < 2 ^ 32) :
    absLow (rcShiftLow s) = 256 * absLow s := by
  unfold rcShiftLow
  by_cases hcond : s.low % 2 ^ 32 < 4278190080 ∨ s.low / 2 ^ 32 ≠ 0
  · rw [if_pos hcond]
    simp only [absLow, pendingRun]
    rcases Nat.lt_or_ge s.low (2 ^ 32) with hlt | hge
    · have hb : (s.cache + s.low / 2 ^ 32) % 256 = s.cache := by omega
      have hf : (255 + s.low / 2 ^ 32) % 256 = 255 := by omega
      rw [hb, hf]
      simp only [Nat.sub_self, List.replicate_zero]
      rw [show (s.low / 2 ^ 24 % 256) :: ([] : List ℕ) = [s.low / 2 ^ 24 % 256] from rfl,
        bytesVal_snoc]
      omega
    · have hcar : s.low / 2 ^ 32 = 1 := by omega
      have hcne : s.cache ≠ 255 := fun habs => by have := hff habs; omega
      have hb : (s.cache + s.low / 2 ^ 32) % 256 = s.cache + 1 := by omega
      have hf : (255 + s.low / 2 ^ 32) % 256 = 0 := by omega
      rw [hb, hf]
      simp only [Nat.sub_self, List.replicate_zero]
      rw [show (s.low / 2 ^ 24 % 256) :: ([] : List ℕ) = [s.low / 2 ^ 24 % 256] from rfl,
        bytesVal_snoc, bytesVal_carry]
      omega
  · rw [if_neg hcond]
    push_neg at hcond
    obtain ⟨hge, hcz⟩ := hcond
    have hlt32 : s.low < 2 ^ 32 := by omega
    rw [Nat.mod_eq_of_lt hlt32] at hge
    simp only [absLow, pendingRun]
    have hsz : s.cacheSize + 1 - 1 = (s.cacheSize - 1) + 1 := by omega
    rw [hsz, bytesVal_run_snoc]
    omega

/-- Number of `rcShiftLow` calls the encoder has performed: one byte was
enqueued initially and one per shift, so it is the number of bytes enqueued
so far minus one. -/
def kOf (s : RCEncState) : ℕ := s.out.length + s.cacheSize - 1

theorem rcShiftLow_parts (s : RCEncState) (hc1 : 1 ≤ s.cacheSize)
    (hc2 : s.cache < 256) :
    kOf (rcShiftLow s) = kOf s + 1 ∧
    (rcShiftLow s).range = s.range ∧
    (rcShiftLow s).low = s.low % 2 ^ 24 * 2 ^ 8 ∧
    1 ≤ (rcShiftLow s).cacheSize ∧
    (rcShiftLow s).cache < 256 ∧
    (rcShiftLow s).low < 2 ^ 32 ∧
    (∃ t, (rcShiftLow s).out = s.out ++ t ∧ ∀ b ∈ t, b < 256) := by
  unfold rcShiftLow
  by_cases hcond : s.low % 2 ^ 32 < 4278190080 ∨ s.low / 2 ^ 32 ≠ 0
  · rw [if_pos hcond]
    refine ⟨?_, rfl, rfl, Nat.le_refl 1, ?_, ?_, ?_⟩
    · unfold kOf
      simp only [List.length_append, List.length_cons, List.length_replicate]
      omega
    · show s.low / 2 ^ 24 % 256 < 256
      omega
    · show s.low % 2 ^ 24 * 2 ^ 8 < 2 ^ 32
      omega
    · refine ⟨_, rfl, ?_⟩
      intro b hb
      simp only [List.mem_cons, List.mem_replicate] at hb
      rcases hb with h | ⟨-, h⟩ <;> omega
  · rw [if_neg hcond]
    refine ⟨?_, rfl, rfl, ?_, hc2, ?_, [], by simp, by simp⟩
    · unfold kOf
      simp only []
      omega
    · show 1 ≤ s.cacheSize + 1
      omega
    · show s.low % 2 ^ 24 * 2 ^ 8 < 2 ^ 32
      omega

/-- One iteration of encoder normalization (`rcShiftLow` plus scaling `range`
by `2^8`) preserves the encoder invariant, provided the loop condition
`range < 2^24` holds. -/
theorem rcNormStep_inv (s : RCEncState) (hinv : RCInv s) (hlt : s.range < kTopValue) :
    RCInv { rcShiftLow s with range := s.range * 2 ^ 8 } := by
  obtain ⟨hc1, hc2, hout, hr0, hr1, hlr, hff⟩ := hinv
  simp only [kTopValue] at hlt
  obtain ⟨-, -, hlow, hcs, hcache, hlow32, t, hout', ht⟩ := rcShiftLow_parts s hc1 hc2
  constructor
  · exact hcs
  · exact hcache
  · intro b hb
    have hb' : b ∈ (rcShiftLow s).out := hb
    rw [hout'] at hb'
    rcases List.mem_append.mp hb' with h | h
    · exact hout b h
    · exact ht b h
  · show 0 < s.range * 2 ^ 8
    omega
  · show s.range * 2 ^ 8 < 2 ^ 32
    omega
  · show (rcShiftLow s).low + s.range * 2 ^ 8 ≤ 2 ^ 33
    rw [hlow]
    omega
  · intro hcf
    have hcf' : (rcShiftLow s).cache = 255 := hcf
    show (rcShiftLow s).low + s.range * 2 ^ 8 ≤ 2 ^ 32
    unfold rcShiftLow at hcf' ⊢
    by_cases hcond : s.low % 2 ^ 32 < 4278190080 ∨ s.low / 2 ^ 32 ≠ 0
    · rw [if_pos hcond] at hcf' ⊢
      have hcf2 : s.low / 2 ^ 24 % 256 = 255 := hcf'
      show s.low % 2 ^ 24 * 2 ^ 8 + s.range * 2 ^ 8 ≤ 2 ^ 32
      omega
    · rw [if_neg hcond] at hcf' ⊢
      push_neg at hcond
      have hcf2 : s.cache = 255 := hcf'
      have hr32 := hff hcf2
      show s.low % 2 ^ 24 * 2 ^ 8 + s.range * 2 ^ 8 ≤ 2 ^ 32
      omega

theorem rcNormEnc_spec (s : RCEncState) :
    RCInv s →
    ∃ j, RCInv (rcNormEnc s) ∧
      kOf (rcNormEnc s) = kOf s + j ∧
      absLow (rcNormEnc s) = absLow s * 256 ^ j ∧
      (rcNormEnc s).range = s.range * 256 ^ j ∧
      kTopValue ≤ (rcNormEnc s).range ∧
      ∃ t, (rcNormEnc s).out = s.out ++ t := by
  induction s using rcNormEnc.induct with
  | case1 s h ih =>
    intro hinv
    have hinv1 : RCInv { rcShiftLow s with range := s.range * 2 ^ 8 } :=
      rcNormStep_inv s hinv h.2
    obtain ⟨j, hinv2, hk, habs, hrange, htop, t, hout⟩ := ih hinv1
    obtain ⟨hk1, -, -, -, -, -, t0, hout0, -⟩ :=
      rcShiftLow_parts s hinv.cacheSize_pos hinv.cache_lt
    have habs1 : absLow (rcShiftLow s) = 256 * absLow s :=
      absLow_shiftLow s hinv.cacheSize_pos hinv.cache_lt
        (by have := hinv.low_range; have := hinv.range_pos; omega)
        (fun hc => by have := hinv.cache_ff hc; have := hinv.range_pos; omega)
    rw [rcNormEnc, dif_pos h]
    refine ⟨j + 1, hinv2, ?_, ?_, ?_, htop, ?_⟩
    · have : kOf { rcShiftLow s with range := s.range * 2 ^ 8 } = kOf (rcShiftLow s) := rfl
      omega
    · have habs0 : absLow { rcShiftLow s with range := s.range * 2 ^ 8 } =
        absLow (rcShiftLow s) := rfl
      rw [habs, habs0, habs1, pow_succ]
      ring
    · rw [hrange]
      show s.range * 2 ^ 8 * 256 ^ j = s.range * 256 ^ (j + 1)
      rw [pow_succ]
      ring
    · refine ⟨t0 ++ t, ?_⟩
      rw [hout]
      show (rcShiftLow s).out ++ t = s.out ++ (t0 ++ t)
      rw [hout0, List.append_assoc]
  | case2 s h =>
    intro hinv
    rw [rcNormEnc, dif_neg h]
    have htop : kTopValue ≤ s.range := by
      have := hinv.range_pos
      omega
    exact ⟨0, hinv, by omega, by simp, by simp, htop, [], by simp⟩

/-- Modelled from the spec: one abstract range-coder operation — a
probability-coded bit (`encodeBit`/`decodeBit`) or a uniform direct bit
(`encodeDirectBits`/`decodeDirectBits`, one bit at a time). -/
inductive RCOp where
  | coded (prob : ℕ) (bit : Bool)
  | direct (bit : Bool)

/-- The bit carried by a range-coder operation. -/
def rcOpBit : RCOp → Bool
  | .coded _ b => b
  | .direct b => b

/-- A live operation: a coded bit's probability is strictly between 0 and
2^11 (the adaptive update rule keeps every probability inside [31, 2017]). -/
def RCOpValid : RCOp → Prop
  | .coded p _ => 0 < p ∧ p < 2 ^ 11
  | .direct _ => True

/-- The encoder step for one abstract operation. -/
def rcEncOp (s : RCEncState) : RCOp → RCEncState
  | .coded p b => rcEncodeBit p b s
  | .direct b => rcEncodeDirectBit b s

/-- The encoder run over a list of operations. -/
def rcEncRun (s : RCEncState) : List RCOp → RCEncState
  | [] => s
  | op :: rest => rcEncRun (rcEncOp s op) rest

theorem rcPreNorm_spec (s s1 : RCEncState) (add : ℕ)
    (hcache : s1.cache = s.cache) (hcs : s1.cacheSize = s.cacheSize)
    (hout1 : s1.out = s.out) (hlow : s1.low = s.low + add)
    (hinv : RCInv s) (hadd : add + s1.range ≤ s.range) (hr0 : 0 < s1.range) :
    RCInv s1 ∧ absLow s1 = absLow s + add ∧ kOf s1 = kOf s := by
  obtain ⟨hc1, hc2, hout, hrp, hr1, hlr, hff⟩ := hinv
  refine ⟨⟨?_, ?_, ?_, hr0, ?_, ?_, ?_⟩, ?_, ?_⟩
  · rw [hcs]; exact hc1
  · rw [hcache]; exact hc2
  · rw [hout1]; exact hout
  · omega
  · rw [hlow]; omega
  · rw [hcache, hlow]
    intro hcf
    have := hff hcf
    omega
  · unfold absLow pendingRun
    rw [hout1, hcache, hcs, hlow]
    omega
  · unfold kOf
    rw [hout1, hcs]

theorem rcEncOp_spec (op : RCOp) (s : RCEncState) (hinv : RCInv s)
    (h24 : kTopValue ≤ s.range) (hop : RCOpValid op) :
    ∃ j add r1, RCInv (rcEncOp s op) ∧
      kTopValue ≤ (rcEncOp s op).range ∧
      kOf (rcEncOp s op) = kOf s + j ∧
      absLow (rcEncOp s op) = (absLow s + add) * 256 ^ j ∧
      (rcEncOp s op).range = r1 * 256 ^ j ∧
      0 < r1 ∧ add + r1 ≤ s.range ∧
      (∃ t, (rcEncOp s op).out = s.out ++ t) := by
  have hr1 := hinv.range_lt
  cases op with
  | coded p b =>
    obtain ⟨hp0, hp1⟩ := hop
    obtain ⟨hb0, hb1⟩ := rcBound_split s.range p h24 hr1 hp0 hp1
    cases b with
    | false =>
      obtain ⟨hinv1, habs1, hk1⟩ := rcPreNorm_spec s
        { s with range := s.range / 2 ^ 11 * p } 0 rfl rfl rfl
        (by show s.low = s.low + 0; omega) hinv
        (by show 0 + s.range / 2 ^ 11 * p ≤ s.range; omega)
        (by show 0 < s.range / 2 ^ 11 * p; omega)
      have hdef : rcEncOp s (RCOp.coded p false) =
          rcNormEnc { s with range := s.range / 2 ^ 11 * p } := rfl
      obtain ⟨j, hinv2, hk, habs, hrange, htop, t, hout'⟩ := rcNormEnc_spec _ hinv1
      rw [hdef]
      refine ⟨j, 0, s.range / 2 ^ 11 * p, hinv2, htop, ?_, ?_, ?_, by omega, by omega,
        t, by rw [hout']⟩
      · rw [hk, hk1]
      · rw [habs, habs1]
      · rw [hrange]
    | true =>
      obtain ⟨hinv1, habs1, hk1⟩ := rcPreNorm_spec s
        { s with low := s.low + s.range / 2 ^ 11 * p, range := s.range - s.range / 2 ^ 11 * p }
        (s.range / 2 ^ 11 * p) rfl rfl rfl rfl hinv
        (by show s.range / 2 ^ 11 * p + (s.range - s.range / 2 ^ 11 * p) ≤ s.range; omega)
        (by show 0 < s.range - s.range / 2 ^ 11 * p; omega)
      have hdef : rcEncOp s (RCOp.coded p true) =
          rcNormEnc { s with low := s.low + s.range / 2 ^ 11 * p,
                             range := s.range - s.range / 2 ^ 11 * p } := rfl
      obtain ⟨j, hinv2, hk, habs, hrange, htop, t, hout'⟩ := rcNormEnc_spec _ hinv1
      rw [hdef]
      refine ⟨j, s.range / 2 ^ 11 * p, s.range - s.range / 2 ^ 11 * p, hinv2, htop,
        ?_, ?_, ?_, by omega, by omega, t, by rw [hout']⟩
      · rw [hk, hk1]
      · rw [habs, habs1]
      · rw [hrange]
  | direct b =>
    have h23 : 2 ^ 23 ≤ s.range / 2 := by
      simp only [kTopValue] at h24
      omega
    obtain ⟨hinv1, habs1, hk1⟩ := rcPreNorm_spec s
      { s with range := s.range / 2, low := s.low + if b then s.range / 2 else 0 }
      (if b then s.range / 2 else 0) rfl rfl rfl rfl hinv
      (by show (if b then s.range / 2 else 0) + s.range / 2 ≤ s.range;
          cases b <;> simp <;> omega)
      (by show 0 < s.range / 2; omega)
    have hdef : rcEncOp s (RCOp.direct b) =
        rcNormEnc { s with range := s.range / 2,
                           low := s.low + if b then s.range / 2 else 0 } := rfl
    obtain ⟨j, hinv2, hk, habs, hrange, htop, t, hout'⟩ := rcNormEnc_spec _ hinv1
    rw [hdef]
    refine ⟨j, if b then s.range / 2 else 0, s.range / 2, hinv2, htop, ?_, ?_, ?_,
      by omega, by cases b <;> simp <;> omega, t, by rw [hout']⟩
    · rw [hk, hk1]
    · rw [habs, habs1]
    · rw [hrange]

/-- Modelled from the spec: `flush()` — five final `shiftLow`s emit the last
5 bytes of `low`. -/
def rcFlush (s : RCEncState) : RCEncState :=
  rcShiftLow (rcShiftLow (rcShiftLow (rcShiftLow (rcShiftLow s))))

theorem rcShiftLow_weak (s : RCEncState) (hc1 : 1 ≤ s.cacheSize) (hc2 : s.cache < 256)
    (hlow : s.low < 2 ^ 33) (hff : s.cache = 255 → s.low < 2 ^ 32)
    (hout : ∀ b ∈ s.out, b < 256) :
    absLow (rcShiftLow s) = 256 * absLow s ∧
    kOf (rcShiftLow s) = kOf s + 1 ∧
    1 ≤ (rcShiftLow s).cacheSize ∧
    (rcShiftLow s).cache < 256 ∧
    (rcShiftLow s).low < 2 ^ 32 ∧
    (rcShiftLow s).low = s.low % 2 ^ 24 * 2 ^ 8 ∧
    (∀ b ∈ (rcShiftLow s).out, b < 256) ∧
    ∃ t, (rcShiftLow s).out = s.out ++ t := by
  obtain ⟨hk, -, hlw, hcs, hcache, hl32, t, hout', ht⟩ := rcShiftLow_parts s hc1 hc2
  refine ⟨absLow_shiftLow s hc1 hc2 hlow hff, hk, hcs, hcache, hl32, hlw, ?_, t, hout'⟩
  intro b hb
  rw [hout'] at hb
  rcases List.mem_append.mp hb with h | h
  · exact hout b h
  · exact ht b h

theorem rcShiftLow_zero (s : RCEncState) (hlow : s.low = 0) :
    (rcShiftLow s).low = 0 ∧ (rcShiftLow s).cache = 0 ∧ (rcShiftLow s).cacheSize = 1 := by
  unfold rcShiftLow
  rw [if_pos (Or.inl (by rw [hlow]; norm_num))]
  refine ⟨?_, ?_, rfl⟩
  · show s.low % 2 ^ 24 * 2 ^ 8 = 0
    rw [hlow]
    norm_num
  · show s.low / 2 ^ 24 % 256 = 0
    rw [hlow]
    norm_num

theorem rcFlush_spec (s : RCEncState) (hinv : RCInv s) :
    absLow (rcFlush s) = absLow s * 256 ^ 5 ∧
    kOf (rcFlush s) = kOf s + 5 ∧
    (rcFlush s).low = 0 ∧ (rcFlush s).cache = 0 ∧ (rcFlush s).cacheSize = 1 ∧
    (∀ b ∈ (rcFlush s).out, b < 256) ∧
    ∃ t, (rcFlush s).out = s.out ++ t := by
  obtain ⟨hc1, hc2, hout, hr0, hr1, hlr, hff⟩ := hinv
  obtain ⟨a1, k1, cs1, ch1, l1, le1, o1, t1, p1⟩ :=
    rcShiftLow_weak s hc1 hc2 (by omega) (fun hc => by have := hff hc; omega) hout
  obtain ⟨a2, k2, cs2, ch2, l2, le2, o2, t2, p2⟩ :=
    rcShiftLow_weak (rcShiftLow s) cs1 ch1 (by omega) (fun _ => l1) o1
  obtain ⟨a3, k3, cs3, ch3, l3, le3, o3, t3, p3⟩ :=
    rcShiftLow_weak (rcShiftLow (rcShiftLow s)) cs2 ch2 (by omega) (fun _ => l2) o2
  obtain ⟨a4, k4, cs4, ch4, l4, le4, o4, t4, p4⟩ :=
    rcShiftLow_weak (rcShiftLow (rcShiftLow (rcShiftLow s))) cs3 ch3 (by omega)
      (fun _ => l3) o3
  obtain ⟨a5, k5, cs5, ch5, l5, le5, o5, t5, p5⟩ :=
    rcShiftLow_weak (rcShiftLow (rcShiftLow (rcShiftLow (rcShiftLow s)))) cs4 ch4
      (by omega) (fun _ => l4) o4
  have hz4 : (rcShiftLow (rcShiftLow (rcShiftLow (rcShiftLow s)))).low = 0 := by
    rw [le4, le3, le2, le1]
    omega
  obtain ⟨hfl, hfc, hfcs⟩ :=
    rcShiftLow_zero (rcShiftLow (rcShiftLow (rcShiftLow (rcShiftLow s)))) hz4
  refine ⟨?_, ?_, hfl, hfc, hfcs, o5, ?_⟩
  · show absLow (rcShiftLow (rcShiftLow (rcShiftLow (rcShiftLow (rcShiftLow s))))) = _
    rw [a5, a4, a3, a2, a1]
    ring
  · show kOf (rcShiftLow (rcShiftLow (rcShiftLow (rcShiftLow (rcShiftLow s))))) = _
    omega
  · refine ⟨t1 ++ t2 ++ t3 ++ t4 ++ t5, ?_⟩
    show (rcShiftLow (rcShiftLow (rcShiftLow (rcShiftLow (rcShiftLow s))))).out = _
    rw [p5, p4, p3, p2, p1]
    simp [List.append_assoc]

theorem absLow_of_flushed (F : RCEncState) (hl : F.low = 0) (hc : F.cache = 0)
    (hcs : F.cacheSize = 1) : absLow F = bytesVal F.out * 2 ^ 40 := by
  unfold absLow pendingRun
  rw [hl, hc, hcs]
  simp only [Nat.sub_self, List.replicate_zero]
  rw [show (0 : ℕ) :: ([] : List ℕ) = [0] from rfl, bytesVal_snoc]
  ring

theorem rcEncRun_spec (ops : List RCOp) : ∀ (s : RCEncState), RCInv s →
    kTopValue ≤ s.range → (∀ op ∈ ops, RCOpValid op) →
    ∃ j, RCInv (rcEncRun s ops) ∧
      kTopValue ≤ (rcEncRun s ops).range ∧
      kOf (rcEncRun s ops) = kOf s + j ∧
      absLow s * 256 ^ j ≤ absLow (rcEncRun s ops) ∧
      absLow (rcEncRun s ops) + (rcEncRun s ops).range ≤ (absLow s + s.range) * 256 ^ j ∧
      ∃ t, (rcEncRun s ops).out = s.out ++ t := by
  induction ops with
  | nil =>
    intro s hinv h24 _
    refine ⟨0, hinv, h24, ?_, ?_, ?_, [], ?_⟩
    · show kOf s = kOf s + 0
      omega
    · show absLow s * 256 ^ 0 ≤ absLow s
      simp
    · show absLow s + s.range ≤ (absLow s + s.range) * 256 ^ 0
      simp
    · show s.out = s.out ++ []
      simp
  | cons op rest ih =>
    intro s hinv h24 hvalid
    obtain ⟨j1, add, r1, hinv1, htop1, hk1, habs1, hrange1, hr1pos, hsum, t1, hout1⟩ :=
      rcEncOp_spec op s hinv h24 (hvalid op (by simp))
    obtain ⟨j2, hinv2, htop2, hk2, hlo2, hhi2, t2, hout2⟩ :=
      ih (rcEncOp s op) hinv1 htop1 (fun o ho => hvalid o (by simp [ho]))
    refine ⟨j1 + j2, hinv2, htop2, ?_, ?_, ?_, t1 ++ t2, ?_⟩
    · show kOf (rcEncRun (rcEncOp s op) rest) = kOf s + (j1 + j2)
      omega
    · show absLow s * 256 ^ (j1 + j2) ≤ absLow (rcEncRun (rcEncOp s op) rest)
      calc absLow s * 256 ^ (j1 + j2)
          ≤ (absLow s + add) * 256 ^ j1 * 256 ^ j2 := by
            rw [pow_add, ← mul_assoc]
            exact Nat.mul_le_mul_right _ (Nat.mul_le_mul_right _ (by omega))
        _ = absLow (rcEncOp s op) * 256 ^ j2 := by rw [habs1]
        _ ≤ absLow (rcEncRun (rcEncOp s op) rest) := hlo2
    · show absLow (rcEncRun (rcEncOp s op) rest) + (rcEncRun (rcEncOp s op) rest).range ≤
        (absLow s + s.range) * 256 ^ (j1 + j2)
      calc absLow (rcEncRun (rcEncOp s op) rest) + (rcEncRun (rcEncOp s op) rest).range
          ≤ (absLow (rcEncOp s op) + (rcEncOp s op).range) * 256 ^ j2 := hhi2
        _ = (absLow s + add + r1) * 256 ^ (j1 + j2) := by
            rw [habs1, hrange1, pow_add]
            ring
        _ ≤ (absLow s + s.range) * 256 ^ (j1 + j2) :=
            Nat.mul_le_mul_right _ (by omega)
    · show (rcEncRun (rcEncOp s op) rest).out = s.out ++ (t1 ++ t2)
      rw [hout2, hout1, List.append_assoc]

/-- The interval-nesting relation between an encoder mid-state and the final
flushed byte stream `B`: the part of `B` beyond the bytes accounted for at
this state refines the current interval `[absLow, absLow + range)`. -/
def Tracks (B : List ℕ) (s : RCEncState) : Prop :=
  kOf s + 5 ≤ B.length ∧
  absLow s * 256 ^ (B.length - (kOf s + 5)) ≤ bytesVal B ∧
  bytesVal B < (absLow s + s.range) * 256 ^ (B.length - (kOf s + 5))

theorem tracks_run (ops : List RCOp) (s : RCEncState) (hinv : RCInv s)
    (h24 : kTopValue ≤ s.range) (hvalid : ∀ op ∈ ops, RCOpValid op) :
    Tracks (rcFlush (rcEncRun s ops)).out s ∧
    (rcFlush (rcEncRun s ops)).out.length = kOf s + 5 +
      (kOf (rcEncRun s ops) - kOf s) := by
  obtain ⟨j, hinvR, htopR, hkR, hloR, hhiR, tR, houtR⟩ := rcEncRun_spec ops s hinv h24 hvalid
  obtain ⟨aF, kF, lF, cF, csF, oF, tF, pF⟩ := rcFlush_spec _ hinvR
  have hlen : (rcFlush (rcEncRun s ops)).out.length = kOf s + j + 5 := by
    have hko : kOf (rcFlush (rcEncRun s ops)) =
        (rcFlush (rcEncRun s ops)).out.length := by
      unfold kOf
      rw [csF]
      omega
    omega
  have hVB : bytesVal (rcFlush (rcEncRun s ops)).out = absLow (rcEncRun s ops) := by
    have habsF := absLow_of_flushed _ lF cF csF
    have h40 : (2 : ℕ) ^ 40 = 256 ^ 5 := by norm_num
    rw [h40] at habsF
    have := habsF.symm.trans aF
    exact Nat.eq_of_mul_eq_mul_right (by positivity) this
  have hsub : (rcFlush (rcEncRun s ops)).out.length - (kOf s + 5) = j := by omega
  refine ⟨⟨by omega, ?_, ?_⟩, by omega⟩
  · rw [hsub, hVB]
    exact hloR
  · rw [hsub, hVB]
    have := hinvR.range_pos
    omega

theorem bytesVal_take_succ (B : List ℕ) (m : ℕ) (hm : m < B.length) :
    bytesVal (B.take (m + 1)) = bytesVal (B.take m) * 256 + B[m] := by
  rw [← List.take_concat_get B m hm, List.concat_eq_append, bytesVal_snoc]

theorem bytesVal_take_bounds (B : List ℕ) (m A R : ℕ) (hm : m ≤ B.length)
    (hB : ∀ b ∈ B, b < 256)
    (hlo : A * 256 ^ (B.length - m) ≤ bytesVal B)
    (hhi : bytesVal B < (A + R) * 256 ^ (B.length - m)) :
    A ≤ bytesVal (B.take m) ∧ bytesVal (B.take m) < A + R := by
  have hsplit : bytesVal B = bytesVal (B.take m) * 256 ^ (B.length - m) +
      bytesVal (B.drop m) := by
    conv_lhs => rw [← List.take_append_drop m B]
    rw [bytesVal_append, List.length_drop]
  have hdlt : bytesVal (B.drop m) < 256 ^ (B.length - m) := by
    have := bytesVal_lt (B.drop m) (fun b hb => hB b (List.mem_of_mem_drop hb))
    rwa [List.length_drop] at this
  constructor
  · by_contra hcon
    push_neg at hcon
    have hstep : (bytesVal (B.take m) + 1) * 256 ^ (B.length - m) ≤
        A * 256 ^ (B.length - m) := Nat.mul_le_mul_right _ (by omega)
    rw [Nat.succ_mul] at hstep
    omega
  · by_contra hcon
    push_neg at hcon
    have hstep : (A + R) * 256 ^ (B.length - m) ≤
        bytesVal (B.take m) * 256 ^ (B.length - m) := Nat.mul_le_mul_right _ hcon
    omega

theorem rcNormDec_step (r c b : ℕ) (rest : List ℕ) (k : Bool)
    (hcond : 0 < r ∧ r < kTopValue) :
    rcNormDec ⟨r, c, b :: rest, k⟩ =
      rcNormDec ⟨r * 2 ^ 8, c * 2 ^ 8 % 2 ^ 32 + b, rest, k⟩ := by
  rw [rcNormDec, dif_pos hcond]
  rfl

theorem rcNormDec_stop (r c : ℕ) (inp : List ℕ) (k : Bool)
    (hcond : ¬(0 < r ∧ r < kTopValue)) :
    rcNormDec ⟨r, c, inp, k⟩ = ⟨r, c, inp, k⟩ := by
  rw [rcNormDec, dif_neg hcond]

theorem rcNormDec_sim (s : RCEncState) : ∀ (B : List ℕ),
    RCInv s → (∀ b ∈ B, b < 256) → Tracks B s →
    kOf (rcNormEnc s) + 5 ≤ B.length →
    rcNormDec ⟨s.range, bytesVal (B.take (kOf s + 5)) - absLow s,
      B.drop (kOf s + 5), false⟩ =
    ⟨(rcNormEnc s).range, bytesVal (B.take (kOf (rcNormEnc s) + 5)) - absLow (rcNormEnc s),
      B.drop (kOf (rcNormEnc s) + 5), false⟩ := by
  induction s using rcNormEnc.induct with
  | case1 s h ih =>
    intro B hinv hB htr hklen
    have hinv' : RCInv { rcShiftLow s with range := s.range * 2 ^ 8 } :=
      rcNormStep_inv s hinv h.2
    have henc : rcNormEnc s = rcNormEnc { rcShiftLow s with range := s.range * 2 ^ 8 } := by
      rw [rcNormEnc, dif_pos h]
    obtain ⟨hk1, -, -, -, -, -, -⟩ :=
      rcShiftLow_parts s hinv.cacheSize_pos hinv.cache_lt
    have hk' : kOf { rcShiftLow s with range := s.range * 2 ^ 8 } = kOf s + 1 := hk1
    have habs' : absLow { rcShiftLow s with range := s.range * 2 ^ 8 } = 256 * absLow s :=
      absLow_shiftLow s hinv.cacheSize_pos hinv.cache_lt
        (by have := hinv.low_range; have := hinv.range_pos; omega)
        (fun hc => by have := hinv.cache_ff hc; have := hinv.range_pos; omega)
    have hm : kOf s + 5 < B.length := by
      obtain ⟨j2, -, hk2, -, -, -, -⟩ := rcNormEnc_spec _ hinv'
      rw [henc] at hklen
      omega
    have htake := bytesVal_take_bounds B (kOf s + 5) (absLow s) s.range
      (le_of_lt hm) hB htr.2.1 htr.2.2
    have hrlt : s.range < 2 ^ 24 := by
      have := h.2
      simp only [kTopValue] at this
      exact this
    have hdrop := List.drop_eq_getElem_cons hm
    have hee : B.length - (kOf s + 5) = B.length - (kOf s + 5 + 1) + 1 := by omega
    have htr' : Tracks B { rcShiftLow s with range := s.range * 2 ^ 8 } := by
      obtain ⟨ht1, ht2, ht3⟩ := htr
      rw [hee, pow_succ] at ht2 ht3
      refine ⟨by omega, ?_, ?_⟩
      · rw [habs', hk']
        calc 256 * absLow s * 256 ^ (B.length - (kOf s + 1 + 5))
            = absLow s * (256 ^ (B.length - (kOf s + 5 + 1)) * 256) := by
              rw [show kOf s + 1 + 5 = kOf s + 5 + 1 from by omega]
              ring
          _ ≤ bytesVal B := ht2
      · rw [habs', hk']
        show bytesVal B < (256 * absLow s + s.range * 2 ^ 8) *
          256 ^ (B.length - (kOf s + 1 + 5))
        calc bytesVal B
            < (absLow s + s.range) * (256 ^ (B.length - (kOf s + 5 + 1)) * 256) := ht3
          _ = (256 * absLow s + s.range * 2 ^ 8) *
              256 ^ (B.length - (kOf s + 1 + 5)) := by
              rw [show kOf s + 1 + 5 = kOf s + 5 + 1 from by omega]
              ring
    have hklen' : kOf (rcNormEnc { rcShiftLow s with range := s.range * 2 ^ 8 }) + 5 ≤
        B.length := by
      rw [henc] at hklen
      exact hklen
    have hX : (bytesVal (B.take (kOf s + 5)) - absLow s) * 2 ^ 8 % 2 ^ 32 + B[kOf s + 5] =
        bytesVal (B.take (kOf s + 5 + 1)) - 256 * absLow s := by
      have hts := bytesVal_take_succ B (kOf s + 5) hm
      have hsm : (bytesVal (B.take (kOf s + 5)) - absLow s) * 2 ^ 8 < 2 ^ 32 := by
        have h1 := htake.1
        have h2 := htake.2
        omega
      rw [Nat.mod_eq_of_lt hsm, hts]
      have h1 := htake.1
      omega
    rw [henc, hdrop, rcNormDec_step _ _ _ _ _ (by exact ⟨hinv.range_pos, h.2⟩), hX,
      show kOf s + 5 + 1 = kOf { rcShiftLow s with range := s.range * 2 ^ 8 } + 5 from
        by omega,
      show (256 : ℕ) * absLow s = absLow { rcShiftLow s with range := s.range * 2 ^ 8 } from
        habs'.symm]
    exact ih B hinv' hB htr' hklen'
  | case2 s h =>
    intro B hinv hB htr hklen
    have henc : rcNormEnc s = s := by rw [rcNormEnc, dif_neg h]
    rw [henc]
    exact rcNormDec_stop _ _ _ _ h

/-- The decoder step for one abstract operation (only the operation's kind
and probability are consulted; the carried bit is what the encoder coded and
is reproduced by the decoder). -/
def rcDecOp (d : RCDecState) : RCOp → Bool × RCDecState
  | .coded p _ => rcDecodeBit p d
  | .direct _ => rcDecodeDirectBit d

/-- The decoder run over a list of operations, returning the decoded bits. -/
def rcDecRun (d : RCDecState) : List RCOp → List Bool × RCDecState
  | [] => ([], d)
  | op :: rest =>
    (((rcDecOp d op).1 :: (rcDecRun (rcDecOp d op).2 rest).1),
      (rcDecRun (rcDecOp d op).2 rest).2)

theorem tracks_of_norm (s : RCEncState) (B : List ℕ) (hinv : RCInv s)
    (htr : Tracks B (rcNormEnc s)) : Tracks B s := by
  obtain ⟨j, -, hk, habs, hrange, -, -⟩ := rcNormEnc_spec s hinv
  obtain ⟨ht1, ht2, ht3⟩ := htr
  rw [hk] at ht1 ht2 ht3
  rw [habs] at ht2 ht3
  rw [hrange] at ht3
  have hle : kOf s + 5 ≤ B.length := by omega
  have hsplit : B.length - (kOf s + 5) = (B.length - (kOf s + j + 5)) + j := by omega
  refine ⟨hle, ?_, ?_⟩
  · rw [hsplit, pow_add]
    calc absLow s * (256 ^ (B.length - (kOf s + j + 5)) * 256 ^ j)
        = absLow s * 256 ^ j * 256 ^ (B.length - (kOf s + j + 5)) := by ring
      _ ≤ bytesVal B := ht2
  · rw [hsplit, pow_add]
    calc bytesVal B
        < (absLow s * 256 ^ j + s.range * 256 ^ j) *
            256 ^ (B.length - (kOf s + j + 5)) := ht3
      _ = (absLow s + s.range) *
            (256 ^ (B.length - (kOf s + j + 5)) * 256 ^ j) := by ring

theorem rcDecOp_sim (op : RCOp) (s : RCEncState) (B : List ℕ)
    (hinv : RCInv s) (h24 : kTopValue ≤ s.range) (hop : RCOpValid op)
    (hB : ∀ b ∈ B, b < 256) (htr1 : Tracks B (rcEncOp s op)) :
    rcDecOp ⟨s.range, bytesVal (B.take (kOf s + 5)) - absLow s,
      B.drop (kOf s + 5), false⟩ op =
    (rcOpBit op,
      ⟨(rcEncOp s op).range,
       bytesVal (B.take (kOf (rcEncOp s op) + 5)) - absLow (rcEncOp s op),
       B.drop (kOf (rcEncOp s op) + 5), false⟩) := by
  have hr1 := hinv.range_lt
  cases op with
  | coded p b =>
    obtain ⟨hp0, hp1⟩ := hop
    obtain ⟨hb0, hb1⟩ := rcBound_split s.range p h24 hr1 hp0 hp1
    cases b with
    | false =>
      set s1 : RCEncState := { s with range := s.range / 2 ^ 11 * p } with hs1
      obtain ⟨hinv1, habs1, hk1⟩ := rcPreNorm_spec s s1 0 rfl rfl rfl
        (by show s.low = s.low + 0; omega) hinv
        (by show 0 + s.range / 2 ^ 11 * p ≤ s.range; omega)
        (by show 0 < s.range / 2 ^ 11 * p; omega)
      have hdef : rcEncOp s (RCOp.coded p false) = rcNormEnc s1 := rfl
      have htr2 : Tracks B s1 := tracks_of_norm s1 B hinv1 (by rw [← hdef]; exact htr1)
      have htake := bytesVal_take_bounds B (kOf s + 5) (absLow s)
        (s.range / 2 ^ 11 * p) (by have := htr2.1; rw [hk1] at this; omega) hB
        (by have := htr2.2.1; rw [hk1, habs1, Nat.add_zero] at this; exact this)
        (by have := htr2.2.2; rw [hk1, habs1, Nat.add_zero] at this;
            show bytesVal B < (absLow s + s.range / 2 ^ 11 * p) *
              256 ^ (B.length - (kOf s + 5))
            exact this)
      have hcc : bytesVal (B.take (kOf s + 5)) - absLow s < s.range / 2 ^ 11 * p := by
        have h1 := htake.1
        have h2 := htake.2
        omega
      show rcDecodeBit p _ = _
      unfold rcDecodeBit
      rw [if_pos hcc]
      have hsim := rcNormDec_sim s1 B hinv1 hB htr2 (by rw [← hdef]; exact htr1.1)
      have harg : (⟨s.range / 2 ^ 11 * p, bytesVal (B.take (kOf s + 5)) - absLow s,
          B.drop (kOf s + 5), false⟩ : RCDecState) =
          ⟨s1.range, bytesVal (B.take (kOf s1 + 5)) - absLow s1,
           B.drop (kOf s1 + 5), false⟩ := by
        rw [hk1, habs1]
        simp [hs1]
      rw [harg, hsim, hdef]
      rfl
    | true =>
      set s1 : RCEncState := { s with low := s.low + s.range / 2 ^ 11 * p, range := s.range - s.range / 2 ^ 11 * p } with hs1
      obtain ⟨hinv1, habs1, hk1⟩ := rcPreNorm_spec s s1 (s.range / 2 ^ 11 * p)
        rfl rfl rfl rfl hinv
        (by show s.range / 2 ^ 11 * p + (s.range - s.range / 2 ^ 11 * p) ≤ s.range; omega)
        (by show 0 < s.range - s.range / 2 ^ 11 * p; omega)
      have hdef : rcEncOp s (RCOp.coded p true) = rcNormEnc s1 := rfl
      have htr2 : Tracks B s1 := tracks_of_norm s1 B hinv1 (by rw [← hdef]; exact htr1)
      have htake := bytesVal_take_bounds B (kOf s + 5)
        (absLow s + s.range / 2 ^ 11 * p) (s.range - s.range / 2 ^ 11 * p)
        (by have := htr2.1; rw [hk1] at this; omega) hB
        (by have := htr2.2.1; rw [hk1, habs1] at this; exact this)
        (by have := htr2.2.2; rw [hk1, habs1] at this;
            show bytesVal B < (absLow s + s.range / 2 ^ 11 * p +
              (s.range - s.range / 2 ^ 11 * p)) * 256 ^ (B.length - (kOf s + 5))
            exact this)
      have hcc : ¬ (bytesVal (B.take (kOf s + 5)) - absLow s <
          s.range / 2 ^ 11 * p) := by
        have h1 := htake.1
        omega
      show rcDecodeBit p _ = _
      unfold rcDecodeBit
      rw [if_neg hcc]
      have hsub : bytesVal (B.take (kOf s + 5)) - absLow s - s.range / 2 ^ 11 * p =
          bytesVal (B.take (kOf s + 5)) - (absLow s + s.range / 2 ^ 11 * p) := by
        omega
      have hsim := rcNormDec_sim s1 B hinv1 hB htr2 (by rw [← hdef]; exact htr1.1)
      have harg : (⟨s.range - s.range / 2 ^ 11 * p,
          bytesVal (B.take (kOf s + 5)) - absLow s - s.range / 2 ^ 11 * p,
          B.drop (kOf s + 5), false⟩ : RCDecState) =
          ⟨s1.range, bytesVal (B.take (kOf s1 + 5)) - absLow s1,
           B.drop (kOf s1 + 5), false⟩ := by
        rw [hk1, habs1, hsub]
      rw [harg, hsim, hdef]
      rfl
  | direct b =>
    have h230 : 0 < s.range / 2 := by
      simp only [kTopValue] at h24
      omega
    set s1 : RCEncState := { s with range := s.range / 2, low := s.low + if b then s.range / 2 else 0 } with hs1
    obtain ⟨hinv1, habs1, hk1⟩ := rcPreNorm_spec s s1 (if b then s.range / 2 else 0)
      rfl rfl rfl rfl hinv
      (by show (if b then s.range / 2 else 0) + s.range / 2 ≤ s.range;
          cases b <;> simp <;> omega)
      h230
    have hdef : rcEncOp s (RCOp.direct b) = rcNormEnc s1 := rfl
    have htr2 : Tracks B s1 := tracks_of_norm s1 B hinv1 (by rw [← hdef]; exact htr1)
    have htake := bytesVal_take_bounds B (kOf s + 5)
      (absLow s + if b then s.range / 2 else 0) (s.range / 2)
      (by have := htr2.1; rw [hk1] at this; omega) hB
      (by have := htr2.2.1; rw [hk1, habs1] at this; exact this)
      (by have := htr2.2.2; rw [hk1, habs1] at this;
          show bytesVal B < (absLow s + (if b then s.range / 2 else 0) + s.range / 2) *
            256 ^ (B.length - (kOf s + 5))
          exact this)
    have hsim := rcNormDec_sim s1 B hinv1 hB htr2 (by rw [← hdef]; exact htr1.1)
    cases b with
    | false =>
      have hcc : bytesVal (B.take (kOf s + 5)) - absLow s < s.range / 2 := by
        have h1 := htake.1
        have h2 := htake.2
        simp only [Bool.false_eq_true, if_false] at h1 h2
        omega
      show rcDecodeDirectBit _ = _
      unfold rcDecodeDirectBit
      rw [if_pos hcc]
      have harg : (⟨s.range / 2, bytesVal (B.take (kOf s + 5)) - absLow s,
          B.drop (kOf s + 5), false⟩ : RCDecState) =
          ⟨s1.range, bytesVal (B.take (kOf s1 + 5)) - absLow s1,
           B.drop (kOf s1 + 5), false⟩ := by
        rw [hk1, habs1]
        simp [hs1]
      rw [harg, hsim, hdef]
      rfl
    | true =>
      have ht : (if true = true then s.range / 2 else 0) = s.range / 2 := if_pos rfl
      have hcc : ¬ (bytesVal (B.take (kOf s + 5)) - absLow s < s.range / 2) := by
        have h1 := htake.1
        rw [ht] at h1
        omega
      show rcDecodeDirectBit _ = _
      unfold rcDecodeDirectBit
      rw [if_neg hcc]
      have hsub : bytesVal (B.take (kOf s + 5)) - absLow s - s.range / 2 =
          bytesVal (B.take (kOf s + 5)) -
            (absLow s + if true then s.range / 2 else 0) := by
        rw [ht]
        omega
      have harg : (⟨s.range / 2, bytesVal (B.take (kOf s + 5)) - absLow s - s.range / 2,
          B.drop (kOf s + 5), false⟩ : RCDecState) =
          ⟨s1.range, bytesVal (B.take (kOf s1 + 5)) - absLow s1,
           B.drop (kOf s1 + 5), false⟩ := by
        rw [hk1, habs1, hsub]
      rw [harg, hsim, hdef]
      rfl

theorem tracks_of_run (ops : List RCOp) (s : RCEncState) (B : List ℕ)
    (hinv : RCInv s) (h24 : kTopValue ≤ s.range)
    (hvalid : ∀ op ∈ ops, RCOpValid op)
    (htr : Tracks B (rcEncRun s ops)) : Tracks B s := by
  obtain ⟨j, -, -, hk, hlo, hhi, -⟩ := rcEncRun_spec ops s hinv h24 hvalid
  obtain ⟨ht1, ht2, ht3⟩ := htr
  rw [hk] at ht1 ht2 ht3
  have hle : kOf s + 5 ≤ B.length := by omega
  have hsplit : B.length - (kOf s + 5) = (B.length - (kOf s + j + 5)) + j := by omega
  have hrpos := (rcEncRun_spec ops s hinv h24 hvalid).choose_spec.1.range_pos
  refine ⟨hle, ?_, ?_⟩
  · rw [hsplit, pow_add]
    calc absLow s * (256 ^ (B.length - (kOf s + j + 5)) * 256 ^ j)
        = absLow s * 256 ^ j * 256 ^ (B.length - (kOf s + j + 5)) := by ring
      _ ≤ absLow (rcEncRun s ops) * 256 ^ (B.length - (kOf s + j + 5)) :=
          Nat.mul_le_mul_right _ hlo
      _ ≤ bytesVal B := ht2
  · rw [hsplit, pow_add]
    calc bytesVal B
        < (absLow (rcEncRun s ops) + (rcEncRun s ops).range) *
            256 ^ (B.length - (kOf s + j + 5)) := ht3
      _ ≤ (absLow s + s.range) * 256 ^ j * 256 ^ (B.length - (kOf s + j + 5)) :=
          Nat.mul_le_mul_right _ hhi
      _ = (absLow s + s.range) * (256 ^ (B.length - (kOf s + j + 5)) * 256 ^ j) := by
          ring

theorem rcDecRun_sim (ops : List RCOp) : ∀ (s : RCEncState) (B : List ℕ),
    RCInv s → kTopValue ≤ s.range → (∀ op ∈ ops, RCOpValid op) →
    (∀ b ∈ B, b < 256) → Tracks B (rcEncRun s ops) →
    rcDecRun ⟨s.range, bytesVal (B.take (kOf s + 5)) - absLow s,
      B.drop (kOf s + 5), false⟩ ops =
    (ops.map rcOpBit,
      ⟨(rcEncRun s ops).range,
       bytesVal (B.take (kOf (rcEncRun s ops) + 5)) - absLow (rcEncRun s ops),
       B.drop (kOf (rcEncRun s ops) + 5), false⟩) := by
  induction ops with
  | nil =>
    intro s B hinv h24 hvalid hB htr
    rfl
  | cons op rest ih =>
    intro s B hinv h24 hvalid hB htr
    have hops : rcEncRun s (op :: rest) = rcEncRun (rcEncOp s op) rest := rfl
    have hvo : RCOpValid op := hvalid op (List.mem_cons_self op rest)
    have hvr : ∀ o ∈ rest, RCOpValid o := fun o ho =>
      hvalid o (List.mem_cons_of_mem _ ho)
    obtain ⟨j, add, r1, hinv1, htop1, -, -, -, -, -, -⟩ :=
      rcEncOp_spec op s hinv h24 hvo
    have htr2 : Tracks B (rcEncRun (rcEncOp s op) rest) := by
      rw [← hops]; exact htr
    have htr1 : Tracks B (rcEncOp s op) :=
      tracks_of_run rest (rcEncOp s op) B hinv1 htop1 hvr htr2
    have hop_sim := rcDecOp_sim op s B hinv h24 hvo hB htr1
    have hrest := ih (rcEncOp s op) B hinv1 htop1 hvr hB htr2
    simp only [rcDecRun, hop_sim]
    rw [hrest]
    rfl

/-- Modelled from the spec: the encoder's initial state — `low = 0`,
`range = 0xFFFFFFFF`, cache byte `0` with `cacheSize = 1` (so the first
shift emits the leading zero byte of the stream), no output yet. -/
def rcEncInit : RCEncState := ⟨0, 2 ^ 32 - 1, 0, 1, []⟩

/-- Modelled from the spec: a complete encoder run — encode every operation,
then flush the last 5 bytes of `low`; the result is the emitted stream. -/
def rcEncode (ops : List RCOp) : List ℕ := (rcFlush (rcEncRun rcEncInit ops)).out

/-- Modelled from the spec: the decoder's initialization — consume 5 bytes,
the first of which a conforming encoder always emits as `0`; `range` starts
at `0xFFFFFFFF` and `code` holds the next 4 bytes big-endian.  A short read
or a nonzero lead byte is flagged as corruption. -/
def rcDecInit (B : List ℕ) : RCDecState :=
  match B with
  | b0 :: b1 :: b2 :: b3 :: b4 :: rest =>
      ⟨2 ^ 32 - 1, bytesVal [b1, b2, b3, b4], rest, if b0 = 0 then false else true⟩
  | _ => ⟨0, 0, [], true⟩

theorem rcEncInit_inv : RCInv rcEncInit := by
  refine ⟨?_, ?_, ?_, ?_, ?_, ?_, ?_⟩ <;> simp [rcEncInit] <;> norm_num

theorem absLow_rcEncInit : absLow rcEncInit = 0 := by
  unfold absLow pendingRun rcEncInit
  simp [bytesVal]

theorem kOf_rcEncInit : kOf rcEncInit = 0 := rfl

theorem rcEncode_len (ops : List RCOp) (hvalid : ∀ op ∈ ops, RCOpValid op) :
    5 ≤ (rcEncode ops).length ∧ Tracks (rcEncode ops) rcEncInit := by
  have h24 : kTopValue ≤ rcEncInit.range := by
    show kTopValue ≤ 2 ^ 32 - 1
    unfold kTopValue
    omega
  have := tracks_run ops rcEncInit rcEncInit_inv h24 hvalid
  refine ⟨?_, this.1⟩
  have h5 := this.1.1
  rw [kOf_rcEncInit] at h5
  show 5 ≤ (rcFlush (rcEncRun rcEncInit ops)).out.length
  omega

theorem bytesVal_head_lt (b0 : ℕ) (tail : List ℕ) (htail : ∀ b ∈ tail, b < 256)
    (R : ℕ) (hbv : bytesVal (b0 :: tail) < R * 256 ^ ((b0 :: tail).length - 5))
    (hR : R ≤ 2 ^ 32 - 1) (hlen : 5 ≤ (b0 :: tail).length) : b0 = 0 := by
  by_contra hb0
  have h1 : 256 ^ tail.length ≤ bytesVal (b0 :: tail) := by
    rw [bytesVal]
    have : 1 * 256 ^ tail.length ≤ b0 * 256 ^ tail.length :=
      Nat.mul_le_mul_right _ (by omega)
    omega
  have hsplit : tail.length = 4 + ((b0 :: tail).length - 5) := by
    simp only [List.length_cons] at hlen ⊢
    omega
  have h2 : bytesVal (b0 :: tail) < R * 256 ^ ((b0 :: tail).length - 5) := hbv
  rw [hsplit, pow_add] at h1
  have hpos : 0 < 256 ^ ((b0 :: tail).length - 5) := by positivity
  have hRlt : R < 256 ^ 4 := by
    calc R ≤ 2 ^ 32 - 1 := hR
      _ < 256 ^ 4 := by norm_num
  have h3 : R * 256 ^ ((b0 :: tail).length - 5) <
      256 ^ 4 * 256 ^ ((b0 :: tail).length - 5) :=
    mul_lt_mul_of_pos_right hRlt hpos
  omega

theorem list_five_split (B : List ℕ) (hlen : 5 ≤ B.length) :
    ∃ b0 b1 b2 b3 b4 rest, B = b0 :: b1 :: b2 :: b3 :: b4 :: rest := by
  revert hlen
  match B with
  | [] => intro h; simp at h
  | [a] => intro h; simp at h
  | [a, b] => intro h; simp at h
  | [a, b, c] => intro h; simp at h
  | [a, b, c, d] => intro h; simp at h
  | a :: b :: c :: d :: e :: rest => intro h; exact ⟨a, b, c, d, e, rest, rfl⟩

theorem rcDecInit_eq (B : List ℕ) (hB : ∀ b ∈ B, b < 256) (hlen : 5 ≤ B.length)
    (hbv : bytesVal B < (2 ^ 32 - 1) * 256 ^ (B.length - 5)) :
    rcDecInit B = ⟨2 ^ 32 - 1, bytesVal (B.take 5), B.drop 5, false⟩ := by
  obtain ⟨b0, b1, b2, b3, b4, rest, rfl⟩ := list_five_split B hlen
  · 
    have htail : ∀ b ∈ b1 :: b2 :: b3 :: b4 :: rest, b < 256 := fun b hb =>
      hB b (List.mem_cons_of_mem _ hb)
    have hb0 : b0 = 0 :=
      bytesVal_head_lt b0 (b1 :: b2 :: b3 :: b4 :: rest) htail (2 ^ 32 - 1) hbv
        (le_refl _) hlen
    subst hb0
    show (⟨2 ^ 32 - 1, bytesVal [b1, b2, b3, b4], rest, if (0 : ℕ) = 0 then false else true⟩ : RCDecState) = _
    rw [if_pos rfl]
    have htake : (0 :: b1 :: b2 :: b3 :: b4 :: rest).take 5 = [0, b1, b2, b3, b4] := rfl
    have hdrop : (0 :: b1 :: b2 :: b3 :: b4 :: rest).drop 5 = rest := rfl
    rw [htake, hdrop]
    have hval : bytesVal [0, b1, b2, b3, b4] = bytesVal [b1, b2, b3, b4] := by
      rw [bytesVal]
      omega
    rw [hval]

theorem rc_run_roundtrip (ops : List RCOp) (hvalid : ∀ op ∈ ops, RCOpValid op) :
    (rcDecRun (rcDecInit (rcEncode ops)) ops).1 = ops.map rcOpBit ∧
    (rcDecRun (rcDecInit (rcEncode ops)) ops).2.corrupt = false := by
  have h24 : kTopValue ≤ rcEncInit.range := by
    show kTopValue ≤ 2 ^ 32 - 1
    unfold kTopValue
    omega
  obtain ⟨hlen, htr⟩ := rcEncode_len ops hvalid
  have hB : ∀ b ∈ rcEncode ops, b < 256 := by
    have := (rcFlush_spec (rcEncRun rcEncInit ops)
      (rcEncRun_spec ops rcEncInit rcEncInit_inv h24 hvalid).choose_spec.1).2.2.2.2.2.1
    exact this
  have htr' : Tracks (rcEncode ops) (rcEncRun rcEncInit ops) := by
    obtain ⟨j, hinvR, htopR, hkR, hloR, hhiR, tR, houtR⟩ :=
      rcEncRun_spec ops rcEncInit rcEncInit_inv h24 hvalid
    obtain ⟨aF, kF, lF, cF, csF, oF, tF, pF⟩ := rcFlush_spec _ hinvR
    have hko : kOf (rcFlush (rcEncRun rcEncInit ops)) =
        (rcFlush (rcEncRun rcEncInit ops)).out.length := by
      unfold kOf
      rw [csF]
      omega
    have hVB : bytesVal (rcEncode ops) = absLow (rcEncRun rcEncInit ops) := by
      have habsF := absLow_of_flushed _ lF cF csF
      have h40 : (2 : ℕ) ^ 40 = 256 ^ 5 := by norm_num
      rw [h40] at habsF
      have := habsF.symm.trans aF
      exact Nat.eq_of_mul_eq_mul_right (by positivity) this
    have hlenB : (rcEncode ops).length = kOf (rcEncRun rcEncInit ops) + 5 := by
      show (rcFlush (rcEncRun rcEncInit ops)).out.length = _
      omega
    refine ⟨by omega, ?_, ?_⟩
    · rw [hlenB]
      simp only [Nat.add_sub_cancel_left, Nat.sub_self, pow_zero, mul_one]
      rw [hVB]
    · rw [hlenB]
      simp only [Nat.sub_self, pow_zero, mul_one]
      rw [hVB]
      have := hinvR.range_pos
      omega
  have hbv : bytesVal (rcEncode ops) <
      (2 ^ 32 - 1) * 256 ^ ((rcEncode ops).length - 5) := by
    have := htr.2.2
    rw [kOf_rcEncInit, absLow_rcEncInit] at this
    show bytesVal (rcEncode ops) < (2 ^ 32 - 1) * 256 ^ ((rcEncode ops).length - (0 + 5))
    exact this
  have hinit := rcDecInit_eq (rcEncode ops) hB hlen hbv
  have hsim := rcDecRun_sim ops rcEncInit (rcEncode ops) rcEncInit_inv h24 hvalid hB
    (by show Tracks (rcFlush (rcEncRun rcEncInit ops)).out (rcEncRun rcEncInit ops)
        exact htr')
  have hstate : rcDecInit (rcEncode ops) =
      ⟨rcEncInit.range, bytesVal ((rcEncode ops).take (kOf rcEncInit + 5)) - absLow rcEncInit,
       (rcEncode ops).drop (kOf rcEncInit + 5), false⟩ := by
    rw [hinit, kOf_rcEncInit, absLow_rcEncInit]
    rfl
  rw [hstate, hsim]
  exact ⟨rfl, rfl⟩

/-- Modelled from the spec: how the next bit is to be coded, as chosen by
the deterministic context model shared by encoder and decoder — either
through an adaptive probability (a `decodeBit`/`encodeBit` pair on the same
context), or as a uniformly coded direct bit. -/
inductive RCKind where
  | codedK (prob : ℕ)
  | directK

/-- A live coding kind: a coded bit's probability is strictly between 0 and
2^11 (the adaptive update rule keeps every probability inside [31, 2017]). -/
def RCKindValid : RCKind → Prop
  | .codedK p => 0 < p ∧ p < 2 ^ 11
  | .directK => True

/-- Modelled from the spec: the operation stream a conforming encoder
produces for the bit sequence `bits` when the shared model `M` assigns
coding kinds as a function of the bit history. -/
def modelOps (M : List Bool → RCKind) : List Bool → List Bool → List RCOp
  | _, [] => []
  | h, b :: rest =>
    (match M h with
     | .codedK p => RCOp.coded p b
     | .directK => RCOp.direct b) :: modelOps M (h ++ [b]) rest

/-- Modelled from the spec: one decoder step under the shared model — the
decoder consults the model on its own decoded history to choose the context
for the next bit. -/
def rcDecStep (M : List Bool → RCKind) (d : RCDecState) (h : List Bool) :
    Bool × RCDecState :=
  match M h with
  | .codedK p => rcDecodeBit p d
  | .directK => rcDecodeDirectBit d

/-- Modelled from the spec: the decoder run of `n` bits under the shared
model, threading the decoder's own bit history. -/
def rcDecModel (M : List Bool → RCKind) :
    ℕ → RCDecState → List Bool → List Bool × RCDecState
  | 0, d, _ => ([], d)
  | n + 1, d, h =>
    ((rcDecStep M d h).1 ::
       (rcDecModel M n (rcDecStep M d h).2 (h ++ [(rcDecStep M d h).1])).1,
     (rcDecModel M n (rcDecStep M d h).2 (h ++ [(rcDecStep M d h).1])).2)

theorem modelOps_valid (M : List Bool → RCKind) (hM : ∀ h, RCKindValid (M h)) :
    ∀ (bits h : List Bool), ∀ op ∈ modelOps M h bits, RCOpValid op := by
  intro bits
  induction bits with
  | nil => intro h op hop; simp [modelOps] at hop
  | cons b rest ih =>
    intro h op hop
    rw [show modelOps M h (b :: rest) =
        (match M h with
         | .codedK p => RCOp.coded p b
         | .directK => RCOp.direct b) :: modelOps M (h ++ [b]) rest from rfl] at hop
    rcases List.mem_cons.mp hop with heq | hmem
    · subst heq
      cases hMh : M h with
      | codedK p =>
        have := hM h
        rw [hMh] at this
        exact this
      | directK =>
        trivial
    · exact ih (h ++ [b]) op hmem

theorem rcDecModel_sim (M : List Bool → RCKind) (hM : ∀ h, RCKindValid (M h))
    (bits : List Bool) : ∀ (h : List Bool) (s : RCEncState) (B : List ℕ),
    RCInv s → kTopValue ≤ s.range → (∀ b ∈ B, b < 256) →
    Tracks B (rcEncRun s (modelOps M h bits)) →
    rcDecModel M bits.length
      ⟨s.range, bytesVal (B.take (kOf s + 5)) - absLow s,
       B.drop (kOf s + 5), false⟩ h =
    (bits,
      ⟨(rcEncRun s (modelOps M h bits)).range,
       bytesVal (B.take (kOf (rcEncRun s (modelOps M h bits)) + 5)) -
         absLow (rcEncRun s (modelOps M h bits)),
       B.drop (kOf (rcEncRun s (modelOps M h bits)) + 5), false⟩) := by
  induction bits with
  | nil =>
    intro h s B hinv h24 hB htr
    rfl
  | cons b rest ih =>
    intro h s B hinv h24 hB htr
    cases hMh : M h with
    | codedK p =>
      have hops : modelOps M h (b :: rest) =
          RCOp.coded p b :: modelOps M (h ++ [b]) rest := by
        rw [show modelOps M h (b :: rest) =
            (match M h with
             | .codedK p => RCOp.coded p b
             | .directK => RCOp.direct b) :: modelOps M (h ++ [b]) rest from rfl,
          hMh]
      have hvo : RCOpValid (RCOp.coded p b) := by
        have := hM h
        rw [hMh] at this
        exact this
      have hvr : ∀ o ∈ modelOps M (h ++ [b]) rest, RCOpValid o :=
        modelOps_valid M hM rest (h ++ [b])
      rw [hops] at htr
      have hrun : rcEncRun s (RCOp.coded p b :: modelOps M (h ++ [b]) rest) =
          rcEncRun (rcEncOp s (RCOp.coded p b)) (modelOps M (h ++ [b]) rest) := rfl
      rw [hrun] at htr
      obtain ⟨j, add, r1, hinv1, htop1, -, -, -, -, -, -⟩ :=
        rcEncOp_spec (RCOp.coded p b) s hinv h24 hvo
      have htr1 : Tracks B (rcEncOp s (RCOp.coded p b)) :=
        tracks_of_run _ _ B hinv1 htop1 hvr htr
      have hop_sim := rcDecOp_sim (RCOp.coded p b) s B hinv h24 hvo hB htr1
      have hstep : rcDecStep M
          ⟨s.range, bytesVal (B.take (kOf s + 5)) - absLow s,
           B.drop (kOf s + 5), false⟩ h =
          (b, ⟨(rcEncOp s (RCOp.coded p b)).range,
            bytesVal (B.take (kOf (rcEncOp s (RCOp.coded p b)) + 5)) -
              absLow (rcEncOp s (RCOp.coded p b)),
            B.drop (kOf (rcEncOp s (RCOp.coded p b)) + 5), false⟩) := by
        unfold rcDecStep
        rw [hMh]
        exact hop_sim
      have hrest := ih (h ++ [b]) (rcEncOp s (RCOp.coded p b)) B hinv1 htop1 hB htr
      rw [hops, hrun]
      simp only [List.length_cons, rcDecModel, hstep]
      rw [hrest]
    | directK =>
      have hops : modelOps M h (b :: rest) =
          RCOp.direct b :: modelOps M (h ++ [b]) rest := by
        rw [show modelOps M h (b :: rest) =
            (match M h with
             | .codedK p => RCOp.coded p b
             | .directK => RCOp.direct b) :: modelOps M (h ++ [b]) rest from rfl,
          hMh]
      have hvo : RCOpValid (RCOp.direct b) := trivial
      have hvr : ∀ o ∈ modelOps M (h ++ [b]) rest, RCOpValid o :=
        modelOps_valid M hM rest (h ++ [b])
      rw [hops] at htr
      have hrun : rcEncRun s (RCOp.direct b :: modelOps M (h ++ [b]) rest) =
          rcEncRun (rcEncOp s (RCOp.direct b)) (modelOps M (h ++ [b]) rest) := rfl
      rw [hrun] at htr
      obtain ⟨j, add, r1, hinv1, htop1, -, -, -, -, -, -⟩ :=
        rcEncOp_spec (RCOp.direct b) s hinv h24 hvo
      have htr1 : Tracks B (rcEncOp s (RCOp.direct b)) :=
        tracks_of_run _ _ B hinv1 htop1 hvr htr
      have hop_sim := rcDecOp_sim (RCOp.direct b) s B hinv h24 hvo hB htr1
      have hstep : rcDecStep M
          ⟨s.range, bytesVal (B.take (kOf s + 5)) - absLow s,
           B.drop (kOf s + 5), false⟩ h =
          (b, ⟨(rcEncOp s (RCOp.direct b)).range,
            bytesVal (B.take (kOf (rcEncOp s (RCOp.direct b)) + 5)) -
              absLow (rcEncOp s (RCOp.direct b)),
            B.drop (kOf (rcEncOp s (RCOp.direct b)) + 5), false⟩) := by
        unfold rcDecStep
        rw [hMh]
        exact hop_sim
      have hrest := ih (h ++ [b]) (rcEncOp s (RCOp.direct b)) B hinv1 htop1 hB htr
      rw [hops, hrun]
      simp only [List.length_cons, rcDecModel, hstep]
      rw [hrest]

theorem rcEncode_setup (ops : List RCOp) (hvalid : ∀ op ∈ ops, RCOpValid op) :
    (∀ b ∈ rcEncode ops, b < 256) ∧
    Tracks (rcEncode ops) (rcEncRun rcEncInit ops) ∧
    rcDecInit (rcEncode ops) =
      ⟨rcEncInit.range,
       bytesVal ((rcEncode ops).take (kOf rcEncInit + 5)) - absLow rcEncInit,
       (rcEncode ops).drop (kOf rcEncInit + 5), false⟩ := by
  have h24 : kTopValue ≤ rcEncInit.range := by
    show kTopValue ≤ 2 ^ 32 - 1
    unfold kTopValue
    omega
  obtain ⟨hlen, htr⟩ := rcEncode_len ops hvalid
  have hB : ∀ b ∈ rcEncode ops, b < 256 := by
    have := (rcFlush_spec (rcEncRun rcEncInit ops)
      (rcEncRun_spec ops rcEncInit rcEncInit_inv h24 hvalid).choose_spec.1).2.2.2.2.2.1
    exact this
  have htr' : Tracks (rcEncode ops) (rcEncRun rcEncInit ops) := by
    obtain ⟨j, hinvR, htopR, hkR, hloR, hhiR, tR, houtR⟩ :=
      rcEncRun_spec ops rcEncInit rcEncInit_inv h24 hvalid
    obtain ⟨aF, kF, lF, cF, csF, oF, tF, pF⟩ := rcFlush_spec _ hinvR
    have hko : kOf (rcFlush (rcEncRun rcEncInit ops)) =
        (rcFlush (rcEncRun rcEncInit ops)).out.length := by
      unfold kOf
      rw [csF]
      omega
    have hVB : bytesVal (rcEncode ops) = absLow (rcEncRun rcEncInit ops) := by
      have habsF := absLow_of_flushed _ lF cF csF
      have h40 : (2 : ℕ) ^ 40 = 256 ^ 5 := by norm_num
      rw [h40] at habsF
      have := habsF.symm.trans aF
      exact Nat.eq_of_mul_eq_mul_right (by positivity) this
    have hlenB : (rcEncode ops).length = kOf (rcEncRun rcEncInit ops) + 5 := by
      show (rcFlush (rcEncRun rcEncInit ops)).out.length = _
      omega
    refine ⟨by omega, ?_, ?_⟩
    · rw [hlenB]
      simp only [Nat.add_sub_cancel_left, Nat.sub_self, pow_zero, mul_one]
      rw [hVB]
    · rw [hlenB]
      simp only [Nat.sub_self, pow_zero, mul_one]
      rw [hVB]
      have := hinvR.range_pos
      omega
  have hbv : bytesVal (rcEncode ops) <
      (2 ^ 32 - 1) * 256 ^ ((rcEncode ops).length - 5) := by
    have := htr.2.2
    rw [kOf_rcEncInit, absLow_rcEncInit] at this
    show bytesVal (rcEncode ops) <
      (2 ^ 32 - 1) * 256 ^ ((rcEncode ops).length - (0 + 5))
    exact this
  have hinit := rcDecInit_eq (rcEncode ops) hB hlen hbv
  refine ⟨hB, htr', ?_⟩
  rw [hinit, kOf_rcEncInit, absLow_rcEncInit]
  rfl

/-- The range-coder round trip, modelled from the spec: for every
deterministic context model `M` (shared by encoder and decoder, choosing an
adaptive-probability context or a direct bit from the bit history) and every
bit sequence `bits`, decoding the flushed encoder stream under the same
model reproduces `bits` exactly and never trips the corruption flag. -/
theorem range_coder_roundtrip (M : List Bool → RCKind) (bits : List Bool)
    (hM : ∀ h, RCKindValid (M h)) :
    (rcDecModel M bits.length
      (rcDecInit (rcEncode (modelOps M [] bits))) []).1 = bits ∧
    (rcDecModel M bits.length
      (rcDecInit (rcEncode (modelOps M [] bits))) []).2.corrupt = false := by
  have hvalid := modelOps_valid M hM bits []
  obtain ⟨hB, htr', hstate⟩ := rcEncode_setup (modelOps M [] bits) hvalid
  have h24 : kTopValue ≤ rcEncInit.range := by
    show kTopValue ≤ 2 ^ 32 - 1
    unfold kTopValue
    omega
  have hsim := rcDecModel_sim M hM bits [] rcEncInit
    (rcEncode (modelOps M [] bits)) rcEncInit_inv h24 hB htr'
  rw [hstate, hsim]
  exact ⟨rfl, rfl⟩

/-- Sanity instance of the round trip at a concrete model and bit string:
the equiprobable model on three bits. -/
theorem range_coder_roundtrip_example :
    (∀ h : List Bool, RCKindValid ((fun _ => RCKind.codedK 1024) h)) ∧
    ((rcDecModel (fun _ => RCKind.codedK 1024) 3
        (rcDecInit (rcEncode (modelOps (fun _ => RCKind.codedK 1024) []
          [true, false, true]))) []).1 = [true, false, true] ∧
     (rcDecModel (fun _ => RCKind.codedK 1024) 3
        (rcDecInit (rcEncode (modelOps (fun _ => RCKind.codedK 1024) []
          [true, false, true]))) []).2.corrupt = false) :=
  ⟨fun _ => ⟨by norm_num, by norm_num⟩,
   range_coder_roundtrip (fun _ => RCKind.codedK 1024) [true, false, true]
     (fun _ => ⟨by norm_num, by norm_num⟩)⟩

theorem bit_split_high (v j : ℕ) :
    v % 2 ^ (j + 1) = v / 2 ^ j % 2 * 2 ^ j + v % 2 ^ j := by
  rw [pow_succ, Nat.mod_mul]
  ring

theorem bit_split_low (v j : ℕ) :
    v % 2 ^ (j + 1) = v % 2 + 2 * (v / 2 % 2 ^ j) := by
  have h2 : (2 : ℕ) ^ (j + 1) = 2 * 2 ^ j := by ring
  rw [h2, Nat.mod_mul]

theorem bitVal_testBit (v i : ℕ) :
    (if v.testBit i then 1 else 0) = v / 2 ^ i % 2 := by
  rcases Nat.mod_two_eq_zero_or_one (v / 2 ^ i) with h | h <;>
    simp [Nat.testBit_to_div_mod, h]

/-- Modelled from the spec: the bits of a `n`-bit value as sent through a
(non-reverse) bit tree — most significant bit first. -/
def treeBits : ℕ → ℕ → List Bool
  | 0, _ => []
  | n + 1, v => v.testBit n :: treeBits n v

/-- Modelled from the spec: the bits of a `n`-bit value as sent through a
reverse bit tree (`SpecPos`, `PosAlign`) — least significant bit first. -/
def revTreeBits : ℕ → ℕ → List Bool
  | 0, _ => []
  | n + 1, v => v.testBit 0 :: revTreeBits n (v / 2)

theorem treeBits_length (n v : ℕ) : (treeBits n v).length = n := by
  induction n generalizing v with
  | zero => rfl
  | succ n ih => simp [treeBits, ih]

theorem revTreeBits_length (n v : ℕ) : (revTreeBits n v).length = n := by
  induction n generalizing v with
  | zero => rfl
  | succ n ih => simp [revTreeBits, ih]

/-- Modelled from the spec: the 6-bit `posSlot` of a distance value — slots
0..3 are the value itself; otherwise twice the bit length minus 2, plus the
bit below the leading one. -/
def slotOf (d : ℕ) : ℕ :=
  if d < 4 then d else 2 * Nat.log 2 d + d / 2 ^ (Nat.log 2 d - 1) % 2

theorem slotBase_even (n : ℕ) : 2 ≤ n → slotBase (2 * n) = 2 ^ n ∧
    slotBase (2 * n + 1) = 3 * 2 ^ (n - 1) := by
  induction n with
  | zero => omega
  | succ n ih =>
    intro hn
    rcases Nat.lt_or_ge n 2 with hn2 | hn2
    · interval_cases n
      · omega
      · constructor <;> rfl
    · obtain ⟨he, ho⟩ := ih hn2
      have hfe : slotFooterBits (2 * n + 1) = n - 1 := by
        unfold slotFooterBits
        rw [if_neg (by omega)]
        omega
      have hfo : slotFooterBits (2 * n + 2) = n := by
        unfold slotFooterBits
        rw [if_neg (by omega)]
        omega
      have h1 : slotBase (2 * (n + 1)) = slotBase (2 * n + 1) + 2 ^ (n - 1) := by
        show slotBase ((2 * n + 1) + 1) = _
        rw [slotBase, hfe]
      have h2 : slotBase (2 * (n + 1) + 1) = slotBase (2 * (n + 1)) + 2 ^ n := by
        show slotBase ((2 * n + 2) + 1) = _
        rw [slotBase, hfo]
        rfl
      have hpow : (2 : ℕ) ^ n = 2 * 2 ^ (n - 1) := by
        rw [← pow_succ']
        congr 1
        omega
      constructor
      · rw [h1, ho]
        have h4 : (2 : ℕ) ^ (n + 1) = 4 * 2 ^ (n - 1) := by
          rw [pow_succ, hpow]
          ring
        rw [h4]
        ring
      · rw [h2, h1, ho]
        have hsub : n + 1 - 1 = n := by omega
        rw [hsub, hpow]
        ring

theorem slotOf_spec (d : ℕ) (hd : 4 ≤ d) :
    4 ≤ slotOf d ∧
    slotBase (slotOf d) ≤ d ∧
    d - slotBase (slotOf d) < 2 ^ (slotOf d / 2 - 1) := by
  have hd0 : d ≠ 0 := by omega
  have hlo : 2 ^ Nat.log 2 d ≤ d := Nat.pow_log_le_self 2 hd0
  have hhi : d < 2 ^ (Nat.log 2 d + 1) := Nat.lt_pow_succ_log_self (by omega) d
  have hn2 : 2 ≤ Nat.log 2 d := by
    by_contra hcon
    push_neg at hcon
    interval_cases h : Nat.log 2 d <;> norm_num at hhi <;> omega
  have hslot : slotOf d = 2 * Nat.log 2 d + d / 2 ^ (Nat.log 2 d - 1) % 2 := by
    unfold slotOf
    rw [if_neg (by omega)]
  obtain ⟨he, ho⟩ := slotBase_even (Nat.log 2 d) hn2
  have hpow : (2 : ℕ) ^ Nat.log 2 d = 2 * 2 ^ (Nat.log 2 d - 1) := by
    rw [← pow_succ']
    congr 1
    omega
  have hpow1 : (2 : ℕ) ^ (Nat.log 2 d + 1) = 4 * 2 ^ (Nat.log 2 d - 1) := by
    rw [pow_succ, hpow]
    ring
  have hq : d / 2 ^ (Nat.log 2 d - 1) = 2 ∨ d / 2 ^ (Nat.log 2 d - 1) = 3 := by
    have hp : 0 < 2 ^ (Nat.log 2 d - 1) := by positivity
    have h1 : 2 ≤ d / 2 ^ (Nat.log 2 d - 1) := by
      rw [Nat.le_div_iff_mul_le hp]
      omega
    have h2 : d / 2 ^ (Nat.log 2 d - 1) < 4 := by
      rw [Nat.div_lt_iff_lt_mul hp]
      omega
    omega
  have hdiv := Nat.div_add_mod d (2 ^ (Nat.log 2 d - 1))
  rcases hq with hq | hq
  · have hmod : d / 2 ^ (Nat.log 2 d - 1) % 2 = 0 := by rw [hq]
    rw [hq] at hdiv
    rw [hslot, hmod]
    have hfoot : (2 * Nat.log 2 d + 0) / 2 - 1 = Nat.log 2 d - 1 := by omega
    rw [hfoot, Nat.add_zero, he]
    have hmlt : d % 2 ^ (Nat.log 2 d - 1) < 2 ^ (Nat.log 2 d - 1) :=
      Nat.mod_lt _ (by positivity)
    refine ⟨by omega, hlo, by omega⟩
  · have hmod : d / 2 ^ (Nat.log 2 d - 1) % 2 = 1 := by rw [hq]
    rw [hq] at hdiv
    rw [hslot, hmod]
    have hfoot : (2 * Nat.log 2 d + 1) / 2 - 1 = Nat.log 2 d - 1 := by omega
    rw [hfoot, ho]
    have hmlt : d % 2 ^ (Nat.log 2 d - 1) < 2 ^ (Nat.log 2 d - 1) :=
      Nat.mod_lt _ (by positivity)
    refine ⟨by omega, by omega, by omega⟩

theorem slotOf_lt (d : ℕ) (hd : d < 2 ^ 32) : slotOf d < 64 := by
  rcases Nat.lt_or_ge d 4 with h4 | h4
  · unfold slotOf
    rw [if_pos h4]
    omega
  · have hd0 : d ≠ 0 := by omega
    have hlog : Nat.log 2 d < 32 := by
      have := Nat.pow_log_le_self 2 hd0
      by_contra hcon
      push_neg at hcon
      have : (2 : ℕ) ^ 32 ≤ 2 ^ Nat.log 2 d := Nat.pow_le_pow_right (by omega) hcon
      omega
    unfold slotOf
    rw [if_neg (by omega)]
    have : d / 2 ^ (Nat.log 2 d - 1) % 2 < 2 := Nat.mod_lt _ (by omega)
    omega

theorem slotOf_small (d : ℕ) (hd : d < 4) : slotOf d = d := by
  unfold slotOf
  rw [if_pos hd]

/-- Modelled from the spec: the four most-recent-distances tuple, stored as
0-based distance values (`dist − 1`), MRU-updated on every match. -/
structure Reps where
  r0 : ℕ
  r1 : ℕ
  r2 : ℕ
  r3 : ℕ
deriving DecidableEq

/-- Modelled from the spec: an LZMA symbol as produced by a conforming
parser — a literal byte, a fresh match (0-based distance value and length),
one of the four rep matches, or the one-byte short rep. -/
inductive Sym where
  | lit (b : ℕ)
  | mtch (dv len : ℕ)
  | rep0 (len : ℕ)
  | rep1 (len : ℕ)
  | rep2 (len : ℕ)
  | rep3 (len : ℕ)
  | shortRep
deriving DecidableEq

/-- Modelled from the spec: byte-by-byte overlapped match copy — append the
byte `dv + 1` positions back, `len` times. -/
def copyFrom (w : List ℕ) (dv : ℕ) : ℕ → List ℕ
  | 0 => w
  | n + 1 => copyFrom (w ++ [w.getD (w.length - dv - 1) 0]) dv n

theorem copyFrom_length (dv : ℕ) :
    ∀ (n : ℕ) (w : List ℕ), (copyFrom w dv n).length = w.length + n := by
  intro n
  induction n with
  | zero => intro w; rfl
  | succ n ih =>
    intro w
    show (copyFrom (w ++ [w.getD (w.length - dv - 1) 0]) dv n).length = _
    rw [ih]
    simp
    omega

/-- Modelled from the spec: executing one symbol — extend the window and
MRU-update the rep tuple. -/
def execSym (w : List ℕ) (r : Reps) : Sym → List ℕ × Reps
  | .lit b => (w ++ [b], r)
  | .mtch dv len => (copyFrom w dv len, ⟨dv, r.r0, r.r1, r.r2⟩)
  | .rep0 len => (copyFrom w r.r0 len, r)
  | .rep1 len => (copyFrom w r.r1 len, ⟨r.r1, r.r0, r.r2, r.r3⟩)
  | .rep2 len => (copyFrom w r.r2 len, ⟨r.r2, r.r0, r.r1, r.r3⟩)
  | .rep3 len => (copyFrom w r.r3 len, ⟨r.r3, r.r0, r.r1, r.r2⟩)
  | .shortRep => (copyFrom w r.r0 1, r)

/-- Modelled from the spec: a symbol a conforming encoder may emit at window
`w` with rep tuple `r`: literal bytes are bytes, matches stay inside the
window and the format's distance/length ranges. -/
def SymOk (w : List ℕ) (r : Reps) : Sym → Prop
  | .lit b => b < 256
  | .mtch dv len => dv + 1 ≤ w.length ∧ dv < 2 ^ 32 ∧ 2 ≤ len ∧ len ≤ 273
  | .rep0 len => r.r0 + 1 ≤ w.length ∧ 2 ≤ len ∧ len ≤ 273
  | .rep1 len => r.r1 + 1 ≤ w.length ∧ 2 ≤ len ∧ len ≤ 273
  | .rep2 len => r.r2 + 1 ≤ w.length ∧ 2 ≤ len ∧ len ≤ 273
  | .rep3 len => r.r3 + 1 ≤ w.length ∧ 2 ≤ len ∧ len ≤ 273
  | .shortRep => r.r0 + 1 ≤ w.length

/-- Modelled from the spec: the two-tier-choice length code — lengths 2..9
as a 3-bit tree, 10..17 as a second 3-bit tree, 18..273 as an 8-bit tree. -/
def lenBits (len : ℕ) : List Bool :=
  if len < 10 then false :: treeBits 3 (len - 2)
  else if len < 18 then true :: false :: treeBits 3 (len - 10)
  else true :: true :: treeBits 8 (len - 18)

/-- Modelled from the spec: the distance code — a 6-bit slot, then for slots
4..13 `slot/2 − 1` reverse-tree bits (`SpecPos`), and for slots 14..63
`slot/2 − 5` direct bits followed by 4 reverse-tree aligned bits
(`PosAlign`). -/
def distBits (dv : ℕ) : List Bool :=
  treeBits 6 (slotOf dv) ++
  (if slotOf dv < 4 then []
   else if slotOf dv < 14 then
     revTreeBits (slotOf dv / 2 - 1) (dv - slotBase (slotOf dv))
   else
     treeBits (slotOf dv / 2 - 1 - 4) ((dv - slotBase (slotOf dv)) / 16) ++
       revTreeBits 4 (dv - slotBase (slotOf dv)))

/-- Modelled from the spec: the bit serialization of one symbol — the
`IsMatch`/`IsRep`/`IsRepG0`/`IsRepG1`/`IsRepG2`/`IsRep0Long` prefix bits,
then length and distance fields as the grammar dictates. -/
def symBits : Sym → List Bool
  | .lit b => false :: treeBits 8 b
  | .mtch dv len => true :: false :: (lenBits len ++ distBits dv)
  | .rep0 len => true :: true :: false :: true :: lenBits len
  | .rep1 len => true :: true :: true :: false :: lenBits len
  | .rep2 len => true :: true :: true :: true :: false :: lenBits len
  | .rep3 len => true :: true :: true :: true :: true :: lenBits len
  | .shortRep => [true, true, false, false]

theorem lenBits_length (len : ℕ) : (lenBits len).length ≤ 10 := by
  unfold lenBits
  split
  · simp [treeBits_length]
  · split <;> simp [treeBits_length]

theorem distBits_length (dv : ℕ) (hdv : dv < 2 ^ 32) :
    (distBits dv).length ≤ 42 := by
  have hs := slotOf_lt dv hdv
  unfold distBits
  split
  · simp [treeBits_length]
  · split
    · simp [treeBits_length, revTreeBits_length]
      omega
    · simp [treeBits_length, revTreeBits_length]
      omega

theorem symBits_length (y : Sym) (w : List ℕ) (r : Reps) (hok : SymOk w r y) :
    (symBits y).length ≤ 64 := by
  cases y with
  | lit b => simp [symBits, treeBits_length]
  | mtch dv len =>
    obtain ⟨-, hdv, -, -⟩ := hok
    have h1 := lenBits_length len
    have h2 := distBits_length dv hdv
    simp [symBits]
    omega
  | rep0 len => have := lenBits_length len; simp [symBits]; omega
  | rep1 len => have := lenBits_length len; simp [symBits]; omega
  | rep2 len => have := lenBits_length len; simp [symBits]; omega
  | rep3 len => have := lenBits_length len; simp [symBits]; omega
  | shortRep => simp [symBits]

theorem execSym_grows (w : List ℕ) (r : Reps) (y : Sym) (hok : SymOk w r y) :
    w.length + 1 ≤ (execSym w r y).1.length := by
  cases y with
  | lit b => simp [execSym]
  | mtch dv len =>
    obtain ⟨-, -, hl, -⟩ := hok
    show w.length + 1 ≤ (copyFrom w dv len).length
    rw [copyFrom_length]
    omega
  | rep0 len =>
    obtain ⟨-, hl, -⟩ := hok
    show w.length + 1 ≤ (copyFrom w r.r0 len).length
    rw [copyFrom_length]
    omega
  | rep1 len =>
    obtain ⟨-, hl, -⟩ := hok
    show w.length + 1 ≤ (copyFrom w r.r1 len).length
    rw [copyFrom_length]
    omega
  | rep2 len =>
    obtain ⟨-, hl, -⟩ := hok
    show w.length + 1 ≤ (copyFrom w r.r2 len).length
    rw [copyFrom_length]
    omega
  | rep3 len =>
    obtain ⟨-, hl, -⟩ := hok
    show w.length + 1 ≤ (copyFrom w r.r3 len).length
    rw [copyFrom_length]
    omega
  | shortRep =>
    show w.length + 1 ≤ (copyFrom w r.r0 1).length
    rw [copyFrom_length]

/-- Modelled from the spec: which field a decoded length belongs to — a
fresh match (distance follows) or one of the rep matches (symbol complete
after the length). -/
inductive LenK where
  | forMatch
  | forRep0
  | forRep1
  | forRep2
  | forRep3
deriving DecidableEq

/-- Modelled from the spec: the decoder's position inside the symbol
grammar — which prefix bit or in-progress tree field the next bit belongs
to, with the partial accumulators. -/
inductive GPos where
  | start
  | lit8 (acc n : ℕ)
  | pIsRep
  | pIsRepG0
  | pIsRep0Long
  | pIsRepG1
  | pIsRepG2
  | lenChoice (k : LenK)
  | lenChoice2 (k : LenK)
  | lenTree (k : LenK) (base width acc n : ℕ)
  | slot6 (len acc n : ℕ)
  | footRev (len slot acc n : ℕ)
  | footDir (len slot acc n : ℕ)
  | footAlign (len slot dacc acc n : ℕ)
deriving DecidableEq

/-- Modelled from the spec: the symbol-decoder state — the window decoded so
far, the rep tuple, and the grammar position. -/
structure MState where
  w : List ℕ
  reps : Reps
  gp : GPos
deriving DecidableEq

/-- Modelled from the spec: complete a decoded length — a fresh match moves
on to the distance slot, a rep match copies from the rep tuple and
MRU-updates it. -/
def lenDone (m : MState) (k : LenK) (len : ℕ) : MState :=
  match k with
  | .forMatch => { m with gp := .slot6 len 0 0 }
  | .forRep0 => { m with w := copyFrom m.w m.reps.r0 len, gp := .start }
  | .forRep1 => { m with w := copyFrom m.w m.reps.r1 len, reps := ⟨m.reps.r1, m.reps.r0, m.reps.r2, m.reps.r3⟩, gp := .start }
  | .forRep2 => { m with w := copyFrom m.w m.reps.r2 len, reps := ⟨m.reps.r2, m.reps.r0, m.reps.r1, m.reps.r3⟩, gp := .start }
  | .forRep3 => { m with w := copyFrom m.w m.reps.r3 len, reps := ⟨m.reps.r3, m.reps.r0, m.reps.r1, m.reps.r2⟩, gp := .start }

/-- Modelled from the spec: complete a decoded fresh match — copy and push
the new distance onto the rep tuple. -/
def matchDone (m : MState) (len dv : ℕ) : MState :=
  { m with w := copyFrom m.w dv len, reps := ⟨dv, m.reps.r0, m.reps.r1, m.reps.r2⟩, gp := .start }

/-- Modelled from the spec: act on a fully decoded distance slot — slots 0..3
are the distance value, slots 4..13 read `slot/2 − 1` reverse `SpecPos` bits,
slots 14..63 read `slot/2 − 5` direct bits then 4 aligned bits. -/
def slotDone (m : MState) (len s : ℕ) : MState :=
  if s < 4 then matchDone m len s
  else if s < 14 then { m with gp := .footRev len s 0 0 }
  else { m with gp := .footDir len s 0 0 }

/-- Modelled from the spec: one bit-level step of the symbol decoder. -/
def gstep (m : MState) (b : Bool) : MState :=
  match m.gp with
  | .start =>
      if b then { m with gp := .pIsRep }
      else { m with gp := .lit8 0 0 }
  | .lit8 acc n =>
      if n = 7 then
        { m with w := m.w ++ [2 * acc + if b then 1 else 0], gp := .start }
      else { m with gp := .lit8 (2 * acc + if b then 1 else 0) (n + 1) }
  | .pIsRep =>
      if b then { m with gp := .pIsRepG0 }
      else { m with gp := .lenChoice .forMatch }
  | .pIsRepG0 =>
      if b then { m with gp := .pIsRepG1 }
      else { m with gp := .pIsRep0Long }
  | .pIsRep0Long =>
      if b then { m with gp := .lenChoice .forRep0 }
      else { m with w := copyFrom m.w m.reps.r0 1, gp := .start }
  | .pIsRepG1 =>
      if b then { m with gp := .pIsRepG2 }
      else { m with gp := .lenChoice .forRep1 }
  | .pIsRepG2 =>
      if b then { m with gp := .lenChoice .forRep3 }
      else { m with gp := .lenChoice .forRep2 }
  | .lenChoice k =>
      if b then { m with gp := .lenChoice2 k }
      else { m with gp := .lenTree k 2 3 0 0 }
  | .lenChoice2 k =>
      if b then { m with gp := .lenTree k 18 8 0 0 }
      else { m with gp := .lenTree k 10 3 0 0 }
  | .lenTree k base width acc n =>
      if n + 1 = width then
        lenDone m k (base + (2 * acc + if b then 1 else 0))
      else { m with gp := .lenTree k base width (2 * acc + if b then 1 else 0) (n + 1) }
  | .slot6 len acc n =>
      if n = 5 then slotDone m len (2 * acc + if b then 1 else 0)
      else { m with gp := .slot6 len (2 * acc + if b then 1 else 0) (n + 1) }
  | .footRev len slot acc n =>
      if n + 1 = slot / 2 - 1 then
        matchDone m len (slotBase slot + (acc + (if b then 1 else 0) * 2 ^ n))
      else { m with gp := .footRev len slot (acc + (if b then 1 else 0) * 2 ^ n) (n + 1) }
  | .footDir len slot acc n =>
      if n + 1 = slot / 2 - 1 - 4 then
        { m with gp := .footAlign len slot (2 * acc + if b then 1 else 0) 0 0 }
      else { m with gp := .footDir len slot (2 * acc + if b then 1 else 0) (n + 1) }
  | .footAlign len slot dacc acc n =>
      if n = 3 then
        matchDone m len (slotBase slot + dacc * 16 + (acc + (if b then 1 else 0) * 2 ^ n))
      else { m with gp := .footAlign len slot dacc (acc + (if b then 1 else 0) * 2 ^ n) (n + 1) }

/-- Modelled from the spec: whether the next bit is a direct (uniform) bit —
exactly the distance footer's unencoded bits — or an adaptively coded bit. -/
def gpDirect : GPos → Bool
  | .footDir _ _ _ _ => true
  | _ => false

/-- Modelled from the spec: the symbol decoder driven to produce `N` window
bytes — the per-symbol loop checks the byte budget at symbol boundaries and
stops once `N` bytes are decoded. -/
def mrunN (N : ℕ) : MState → List Bool → MState
  | m, [] => m
  | m, b :: rest =>
      if m.gp = GPos.start ∧ N ≤ m.w.length then m
      else mrunN N (gstep m b) rest

/-- Modelled from the spec: the initial symbol-decoder state — empty window,
rep tuple all zero, at a symbol boundary. -/
def mInit : MState := ⟨[], ⟨0, 0, 0, 0⟩, .start⟩

/-- Modelled from the spec: the coding kind of the next bit after a given
bit history, obtained by replaying the history through the symbol grammar;
the adaptive probability assignment `prob` is an arbitrary function of the
history, subsuming every context/state selection scheme and every adaptive
update rule the format fixes. -/
def lzmaM (prob : List Bool → ℕ) (h : List Bool) : RCKind :=
  if gpDirect (h.foldl gstep mInit).gp then RCKind.directK
  else RCKind.codedK (prob h)

theorem mrunN_cons_mid (N : ℕ) (m : MState) (b : Bool) (rest : List Bool)
    (h : ¬(m.gp = GPos.start ∧ N ≤ m.w.length)) :
    mrunN N m (b :: rest) = mrunN N (gstep m b) rest := by
  simp only [mrunN]
  rw [if_neg h]

theorem mrunN_cons_start (N : ℕ) (w : List ℕ) (r : Reps) (b : Bool)
    (rest : List Bool) (hlt : w.length < N) :
    mrunN N ⟨w, r, .start⟩ (b :: rest) = mrunN N (gstep ⟨w, r, .start⟩ b) rest := by
  simp only [mrunN]
  rw [if_neg (by simp only [not_and]; intro; omega)]

theorem mrunN_stop (N : ℕ) (m : MState) (junk : List Bool)
    (hgp : m.gp = GPos.start) (hN : N ≤ m.w.length) :
    mrunN N m junk = m := by
  cases junk with
  | nil => rfl
  | cons b rest =>
    simp only [mrunN]
    rw [if_pos ⟨hgp, hN⟩]

theorem mrunN_lit8 (N : ℕ) : ∀ (j : ℕ), ∀ (acc n v : ℕ) (w : List ℕ) (r : Reps)
    (rest : List Bool), n + j = 8 → 1 ≤ j →
    mrunN N ⟨w, r, .lit8 acc n⟩ (treeBits j v ++ rest) =
    mrunN N ⟨w ++ [acc * 2 ^ j + v % 2 ^ j], r, .start⟩ rest := by
  intro j
  induction j with
  | zero => intro acc n v w r rest hnj hj; omega
  | succ j ih =>
    intro acc n v w r rest hnj hj
    show mrunN N ⟨w, r, .lit8 acc n⟩ ((v.testBit j :: treeBits j v) ++ rest) = _
    rw [List.cons_append, mrunN_cons_mid N _ _ _ (by simp)]
    rcases Nat.eq_zero_or_pos j with hj0 | hjpos
    · subst hj0
      have hn : n = 7 := by omega
      subst hn
      have hg : gstep ⟨w, r, .lit8 acc 7⟩ (v.testBit 0) =
          ⟨w ++ [2 * acc + if v.testBit 0 then 1 else 0], r, .start⟩ := rfl
      rw [hg, show treeBits 0 v = [] from rfl, List.nil_append]
      have hb : (2 * acc + if v.testBit 0 then 1 else 0) =
          acc * 2 ^ 1 + v % 2 ^ 1 := by
        rw [bitVal_testBit]
        norm_num
        omega
      rw [hb]
    · have hg : gstep ⟨w, r, .lit8 acc n⟩ (v.testBit j) =
          ⟨w, r, .lit8 (2 * acc + if v.testBit j then 1 else 0) (n + 1)⟩ := by
        simp only [gstep]
        rw [if_neg (by omega)]
      rw [hg, ih _ (n + 1) v w r rest (by omega) hjpos]
      have hb : (2 * acc + if v.testBit j then 1 else 0) * 2 ^ j + v % 2 ^ j =
          acc * 2 ^ (j + 1) + v % 2 ^ (j + 1) := by
        rw [bitVal_testBit, bit_split_high]
        ring
      rw [hb]

theorem mrunN_lenTree (N : ℕ) (k : LenK) (base width : ℕ) :
    ∀ (j : ℕ), ∀ (acc n v : ℕ) (w : List ℕ) (r : Reps) (rest : List Bool),
    n + j = width → 1 ≤ j →
    mrunN N ⟨w, r, .lenTree k base width acc n⟩ (treeBits j v ++ rest) =
    mrunN N (lenDone ⟨w, r, .lenTree k base width acc n⟩ k
      (base + (acc * 2 ^ j + v % 2 ^ j))) rest := by
  intro j
  induction j with
  | zero => intro acc n v w r rest hnj hj; omega
  | succ j ih =>
    intro acc n v w r rest hnj hj
    show mrunN N _ ((v.testBit j :: treeBits j v) ++ rest) = _
    rw [List.cons_append, mrunN_cons_mid N _ _ _ (by simp)]
    rcases Nat.eq_zero_or_pos j with hj0 | hjpos
    · subst hj0
      have hg : gstep ⟨w, r, .lenTree k base width acc n⟩ (v.testBit 0) =
          lenDone ⟨w, r, .lenTree k base width acc n⟩ k
            (base + (2 * acc + if v.testBit 0 then 1 else 0)) := by
        simp only [gstep]
        rw [if_pos (by omega)]
      rw [hg, show treeBits 0 v = [] from rfl, List.nil_append]
      have hb : (2 * acc + if v.testBit 0 then 1 else 0) =
          acc * 2 ^ 1 + v % 2 ^ 1 := by
        rw [bitVal_testBit]
        norm_num
        omega
      rw [hb]
    · have hg : gstep ⟨w, r, .lenTree k base width acc n⟩ (v.testBit j) =
          ⟨w, r, .lenTree k base width (2 * acc + if v.testBit j then 1 else 0) (n + 1)⟩ := by
        simp only [gstep]
        rw [if_neg (by omega)]
      rw [hg, ih _ (n + 1) v w r rest (by omega) hjpos]
      have hb : (2 * acc + if v.testBit j then 1 else 0) * 2 ^ j + v % 2 ^ j =
          acc * 2 ^ (j + 1) + v % 2 ^ (j + 1) := by
        rw [bitVal_testBit, bit_split_high]
        ring
      rw [hb]
      have hld : lenDone ⟨w, r, GPos.lenTree k base width
            (2 * acc + if v.testBit j then 1 else 0) (n + 1)⟩ k
            (base + (acc * 2 ^ (j + 1) + v % 2 ^ (j + 1))) =
          lenDone ⟨w, r, GPos.lenTree k base width acc n⟩ k
            (base + (acc * 2 ^ (j + 1) + v % 2 ^ (j + 1))) := by
        cases k <;> rfl
      rw [hld]

theorem mrunN_slot6 (N : ℕ) (len : ℕ) :
    ∀ (j : ℕ), ∀ (acc n v : ℕ) (w : List ℕ) (r : Reps) (rest : List Bool),
    n + j = 6 → 1 ≤ j →
    mrunN N ⟨w, r, .slot6 len acc n⟩ (treeBits j v ++ rest) =
    mrunN N (slotDone ⟨w, r, .slot6 len acc n⟩ len
      (acc * 2 ^ j + v % 2 ^ j)) rest := by
  intro j
  induction j with
  | zero => intro acc n v w r rest hnj hj; omega
  | succ j ih =>
    intro acc n v w r rest hnj hj
    show mrunN N _ ((v.testBit j :: treeBits j v) ++ rest) = _
    rw [List.cons_append, mrunN_cons_mid N _ _ _ (by simp)]
    rcases Nat.eq_zero_or_pos j with hj0 | hjpos
    · subst hj0
      have hn : n = 5 := by omega
      subst hn
      have hg : gstep ⟨w, r, .slot6 len acc 5⟩ (v.testBit 0) =
          slotDone ⟨w, r, .slot6 len acc 5⟩ len
            (2 * acc + if v.testBit 0 then 1 else 0) := rfl
      rw [hg, show treeBits 0 v = [] from rfl, List.nil_append]
      have hb : (2 * acc + if v.testBit 0 then 1 else 0) =
          acc * 2 ^ 1 + v % 2 ^ 1 := by
        rw [bitVal_testBit]
        norm_num
        omega
      rw [hb]
    · have hg : gstep ⟨w, r, .slot6 len acc n⟩ (v.testBit j) =
          ⟨w, r, .slot6 len (2 * acc + if v.testBit j then 1 else 0) (n + 1)⟩ := by
        simp only [gstep]
        rw [if_neg (by omega)]
      rw [hg, ih _ (n + 1) v w r rest (by omega) hjpos]
      have hb : (2 * acc + if v.testBit j then 1 else 0) * 2 ^ j + v % 2 ^ j =
          acc * 2 ^ (j + 1) + v % 2 ^ (j + 1) := by
        rw [bitVal_testBit, bit_split_high]
        ring
      rw [hb]
      have hsd : slotDone ⟨w, r, GPos.slot6 len
            (2 * acc + if v.testBit j then 1 else 0) (n + 1)⟩ len
            (acc * 2 ^ (j + 1) + v % 2 ^ (j + 1)) =
          slotDone ⟨w, r, GPos.slot6 len acc n⟩ len
            (acc * 2 ^ (j + 1) + v % 2 ^ (j + 1)) := by
        unfold slotDone matchDone
        rfl
      rw [hsd]

theorem mrunN_footRev (N : ℕ) (len slot : ℕ) :
    ∀ (j : ℕ), ∀ (acc n v : ℕ) (w : List ℕ) (r : Reps) (rest : List Bool),
    n + j = slot / 2 - 1 → 1 ≤ j →
    mrunN N ⟨w, r, .footRev len slot acc n⟩ (revTreeBits j v ++ rest) =
    mrunN N (matchDone ⟨w, r, .footRev len slot acc n⟩ len
      (slotBase slot + (acc + v % 2 ^ j * 2 ^ n))) rest := by
  intro j
  induction j with
  | zero => intro acc n v w r rest hnj hj; omega
  | succ j ih =>
    intro acc n v w r rest hnj hj
    show mrunN N _ ((v.testBit 0 :: revTreeBits j (v / 2)) ++ rest) = _
    rw [List.cons_append, mrunN_cons_mid N _ _ _ (by simp)]
    have hb0 : (if v.testBit 0 then 1 else 0) = v % 2 := by
      rw [bitVal_testBit]
      norm_num
    rcases Nat.eq_zero_or_pos j with hj0 | hjpos
    · subst hj0
      have hg : gstep ⟨w, r, .footRev len slot acc n⟩ (v.testBit 0) =
          matchDone ⟨w, r, .footRev len slot acc n⟩ len
            (slotBase slot + (acc + (if v.testBit 0 then 1 else 0) * 2 ^ n)) := by
        simp only [gstep]
        rw [if_pos (by omega)]
      rw [hg, show revTreeBits 0 (v / 2) = [] from rfl, List.nil_append]
      have hb : (if v.testBit 0 then 1 else 0) * 2 ^ n = v % 2 ^ 1 * 2 ^ n := by
        rw [hb0]
        norm_num
      rw [hb]
    · have hg : gstep ⟨w, r, .footRev len slot acc n⟩ (v.testBit 0) =
          ⟨w, r, .footRev len slot (acc + (if v.testBit 0 then 1 else 0) * 2 ^ n) (n + 1)⟩ := by
        simp only [gstep]
        rw [if_neg (by omega)]
      rw [hg, ih _ (n + 1) (v / 2) w r rest (by omega) hjpos]
      have hb : acc + (if v.testBit 0 then 1 else 0) * 2 ^ n +
          v / 2 % 2 ^ j * 2 ^ (n + 1) = acc + v % 2 ^ (j + 1) * 2 ^ n := by
        rw [hb0, bit_split_low]
        ring
      rw [hb]
      have hmd : matchDone ⟨w, r, GPos.footRev len slot
            (acc + (if v.testBit 0 then 1 else 0) * 2 ^ n) (n + 1)⟩ len
            (slotBase slot + (acc + v % 2 ^ (j + 1) * 2 ^ n)) =
          matchDone ⟨w, r, GPos.footRev len slot acc n⟩ len
            (slotBase slot + (acc + v % 2 ^ (j + 1) * 2 ^ n)) := rfl
      rw [hmd]

theorem mrunN_footAlign (N : ℕ) (len slot dacc : ℕ) :
    ∀ (j : ℕ), ∀ (acc n v : ℕ) (w : List ℕ) (r : Reps) (rest : List Bool),
    n + j = 4 → 1 ≤ j →
    mrunN N ⟨w, r, .footAlign len slot dacc acc n⟩ (revTreeBits j v ++ rest) =
    mrunN N (matchDone ⟨w, r, .footAlign len slot dacc acc n⟩ len
      (slotBase slot + dacc * 16 + (acc + v % 2 ^ j * 2 ^ n))) rest := by
  intro j
  induction j with
  | zero => intro acc n v w r rest hnj hj; omega
  | succ j ih =>
    intro acc n v w r rest hnj hj
    show mrunN N _ ((v.testBit 0 :: revTreeBits j (v / 2)) ++ rest) = _
    rw [List.cons_append, mrunN_cons_mid N _ _ _ (by simp)]
    have hb0 : (if v.testBit 0 then 1 else 0) = v % 2 := by
      rw [bitVal_testBit]
      norm_num
    rcases Nat.eq_zero_or_pos j with hj0 | hjpos
    · subst hj0
      have hn : n = 3 := by omega
      subst hn
      have hg : gstep ⟨w, r, .footAlign len slot dacc acc 3⟩ (v.testBit 0) =
          matchDone ⟨w, r, .footAlign len slot dacc acc 3⟩ len
            (slotBase slot + dacc * 16 + (acc + (if v.testBit 0 then 1 else 0) * 2 ^ 3)) := rfl
      rw [hg, show revTreeBits 0 (v / 2) = [] from rfl, List.nil_append]
      have hb : (if v.testBit 0 then 1 else 0) * 2 ^ 3 = v % 2 ^ 1 * 2 ^ 3 := by
        rw [hb0]
        norm_num
      rw [hb]
    · have hg : gstep ⟨w, r, .footAlign len slot dacc acc n⟩ (v.testBit 0) =
          ⟨w, r, .footAlign len slot dacc (acc + (if v.testBit 0 then 1 else 0) * 2 ^ n) (n + 1)⟩ := by
        simp only [gstep]
        rw [if_neg (by omega)]
      rw [hg, ih _ (n + 1) (v / 2) w r rest (by omega) hjpos]
      have hb : acc + (if v.testBit 0 then 1 else 0) * 2 ^ n +
          v / 2 % 2 ^ j * 2 ^ (n + 1) = acc + v % 2 ^ (j + 1) * 2 ^ n := by
        rw [hb0, bit_split_low]
        ring
      rw [hb]
      have hmd : matchDone ⟨w, r, GPos.footAlign len slot dacc
            (acc + (if v.testBit 0 then 1 else 0) * 2 ^ n) (n + 1)⟩ len
            (slotBase slot + dacc * 16 + (acc + v % 2 ^ (j + 1) * 2 ^ n)) =
          matchDone ⟨w, r, GPos.footAlign len slot dacc acc n⟩ len
            (slotBase slot + dacc * 16 + (acc + v % 2 ^ (j + 1) * 2 ^ n)) := rfl
      rw [hmd]

theorem mrunN_footDir (N : ℕ) (len slot : ℕ) :
    ∀ (j : ℕ), ∀ (acc n v : ℕ) (w : List ℕ) (r : Reps) (rest : List Bool),
    n + j = slot / 2 - 1 - 4 → 1 ≤ j →
    mrunN N ⟨w, r, .footDir len slot acc n⟩ (treeBits j v ++ rest) =
    mrunN N ⟨w, r, .footAlign len slot (acc * 2 ^ j + v % 2 ^ j) 0 0⟩ rest := by
  intro j
  induction j with
  | zero => intro acc n v w r rest hnj hj; omega
  | succ j ih =>
    intro acc n v w r rest hnj hj
    show mrunN N _ ((v.testBit j :: treeBits j v) ++ rest) = _
    rw [List.cons_append, mrunN_cons_mid N _ _ _ (by simp)]
    rcases Nat.eq_zero_or_pos j with hj0 | hjpos
    · subst hj0
      have hg : gstep ⟨w, r, .footDir len slot acc n⟩ (v.testBit 0) =
          ⟨w, r, .footAlign len slot (2 * acc + if v.testBit 0 then 1 else 0) 0 0⟩ := by
        simp only [gstep]
        rw [if_pos (by omega)]
      rw [hg, show treeBits 0 v = [] from rfl, List.nil_append]
      have hb : (2 * acc + if v.testBit 0 then 1 else 0) =
          acc * 2 ^ 1 + v % 2 ^ 1 := by
        rw [bitVal_testBit]
        norm_num
        omega
      rw [hb]
    · have hg : gstep ⟨w, r, .footDir len slot acc n⟩ (v.testBit j) =
          ⟨w, r, .footDir len slot (2 * acc + if v.testBit j then 1 else 0) (n + 1)⟩ := by
        simp only [gstep]
        rw [if_neg (by omega)]
      rw [hg, ih _ (n + 1) v w r rest (by omega) hjpos]
      have hb : (2 * acc + if v.testBit j then 1 else 0) * 2 ^ j + v % 2 ^ j =
          acc * 2 ^ (j + 1) + v % 2 ^ (j + 1) := by
        rw [bitVal_testBit, bit_split_high]
        ring
      rw [hb]

theorem lenDone_gp (w : List ℕ) (r : Reps) (g1 g2 : GPos) (k : LenK) (len : ℕ) :
    lenDone ⟨w, r, g1⟩ k len = lenDone ⟨w, r, g2⟩ k len := by
  cases k <;> rfl

theorem mrunN_len (N : ℕ) (k : LenK) (len : ℕ) (w : List ℕ) (r : Reps)
    (rest : List Bool) (h2 : 2 ≤ len) (h273 : len ≤ 273) :
    mrunN N ⟨w, r, .lenChoice k⟩ (lenBits len ++ rest) =
    mrunN N (lenDone ⟨w, r, .lenChoice k⟩ k len) rest := by
  unfold lenBits
  rcases Nat.lt_or_ge len 10 with hl | hl
  · rw [if_pos hl, List.cons_append, mrunN_cons_mid N _ _ _ (by simp)]
    have hg : gstep ⟨w, r, .lenChoice k⟩ false =
        ⟨w, r, .lenTree k 2 3 0 0⟩ := rfl
    rw [hg, mrunN_lenTree N k 2 3 3 0 0 (len - 2) w r rest rfl (by omega)]
    have hv : 2 + (0 * 2 ^ 3 + (len - 2) % 2 ^ 3) = len := by
      have : (len - 2) % 2 ^ 3 = len - 2 := Nat.mod_eq_of_lt (by omega)
      omega
    rw [hv, lenDone_gp]
  · rcases Nat.lt_or_ge len 18 with hl2 | hl2
    · rw [if_neg (by omega), if_pos hl2, List.cons_append, List.cons_append,
        mrunN_cons_mid N _ _ _ (by simp)]
      have hg : gstep ⟨w, r, .lenChoice k⟩ true =
          ⟨w, r, .lenChoice2 k⟩ := rfl
      rw [hg, mrunN_cons_mid N _ _ _ (by simp)]
      have hg2 : gstep ⟨w, r, .lenChoice2 k⟩ false =
          ⟨w, r, .lenTree k 10 3 0 0⟩ := rfl
      rw [hg2, mrunN_lenTree N k 10 3 3 0 0 (len - 10) w r rest rfl (by omega)]
      have hv : 10 + (0 * 2 ^ 3 + (len - 10) % 2 ^ 3) = len := by
        have : (len - 10) % 2 ^ 3 = len - 10 := Nat.mod_eq_of_lt (by omega)
        omega
      rw [hv, lenDone_gp]
    · rw [if_neg (by omega), if_neg (by omega), List.cons_append, List.cons_append,
        mrunN_cons_mid N _ _ _ (by simp)]
      have hg : gstep ⟨w, r, .lenChoice k⟩ true =
          ⟨w, r, .lenChoice2 k⟩ := rfl
      rw [hg, mrunN_cons_mid N _ _ _ (by simp)]
      have hg2 : gstep ⟨w, r, .lenChoice2 k⟩ true =
          ⟨w, r, .lenTree k 18 8 0 0⟩ := rfl
      rw [hg2, mrunN_lenTree N k 18 8 8 0 0 (len - 18) w r rest rfl (by omega)]
      have hv : 18 + (0 * 2 ^ 8 + (len - 18) % 2 ^ 8) = len := by
        have : (len - 18) % 2 ^ 8 = len - 18 := Nat.mod_eq_of_lt (by omega)
        omega
      rw [hv, lenDone_gp]

theorem mrunN_dist (N : ℕ) (len dv : ℕ) (hdv : dv < 2 ^ 32) (w : List ℕ)
    (r : Reps) (rest : List Bool) :
    mrunN N ⟨w, r, .slot6 len 0 0⟩ (distBits dv ++ rest) =
    mrunN N (matchDone ⟨w, r, .slot6 len 0 0⟩ len dv) rest := by
  have hs64 := slotOf_lt dv hdv
  unfold distBits
  rw [List.append_assoc,
    mrunN_slot6 N len 6 0 0 (slotOf dv) w r _ rfl (by omega)]
  have hmod : 0 * 2 ^ 6 + slotOf dv % 2 ^ 6 = slotOf dv := by
    have : slotOf dv % 2 ^ 6 = slotOf dv := Nat.mod_eq_of_lt (by norm_num; omega)
    omega
  rw [hmod]
  rcases Nat.lt_or_ge dv 4 with h4 | h4
  · have hsv : slotOf dv = dv := slotOf_small dv h4
    rw [hsv]
    unfold slotDone
    rw [if_pos h4, if_pos h4, List.nil_append]
  · obtain ⟨hs4, hbase, hfoot⟩ := slotOf_spec dv h4
    unfold slotDone
    have hn4 : ¬ slotOf dv < 4 := by omega
    rw [if_neg hn4, if_neg hn4]
    rcases Nat.lt_or_ge (slotOf dv) 14 with h14 | h14
    · rw [if_pos h14, if_pos h14,
        mrunN_footRev N len (slotOf dv) (slotOf dv / 2 - 1) 0 0
          (dv - slotBase (slotOf dv)) w r rest (by omega) (by omega)]
      have hv : slotBase (slotOf dv) +
          (0 + (dv - slotBase (slotOf dv)) % 2 ^ (slotOf dv / 2 - 1) * 2 ^ 0) = dv := by
        have : (dv - slotBase (slotOf dv)) % 2 ^ (slotOf dv / 2 - 1) =
            dv - slotBase (slotOf dv) := Nat.mod_eq_of_lt hfoot
        rw [this]
        simp
        omega
      rw [hv]
      rfl
    · have hn14 : ¬ slotOf dv < 14 := by omega
      rw [if_neg hn14, if_neg hn14, List.append_assoc,
        mrunN_footDir N len (slotOf dv) (slotOf dv / 2 - 1 - 4) 0 0
          ((dv - slotBase (slotOf dv)) / 16) w r _ (by omega) (by omega)]
      have hfge : 6 ≤ slotOf dv / 2 - 1 := by omega
      have hdir : 0 * 2 ^ (slotOf dv / 2 - 1 - 4) +
          (dv - slotBase (slotOf dv)) / 16 % 2 ^ (slotOf dv / 2 - 1 - 4) =
          (dv - slotBase (slotOf dv)) / 16 := by
        have hlt : (dv - slotBase (slotOf dv)) / 16 < 2 ^ (slotOf dv / 2 - 1 - 4) := by
          have h16 : (16 : ℕ) = 2 ^ 4 := by norm_num
          rw [h16, Nat.div_lt_iff_lt_mul (by positivity), ← pow_add]
          have : slotOf dv / 2 - 1 - 4 + 4 = slotOf dv / 2 - 1 := by omega
          rw [this]
          exact hfoot
        rw [Nat.mod_eq_of_lt hlt]
        omega
      rw [hdir,
        mrunN_footAlign N len (slotOf dv) ((dv - slotBase (slotOf dv)) / 16) 4 0 0
          (dv - slotBase (slotOf dv)) w r rest rfl (by omega)]
      have hv : slotBase (slotOf dv) + (dv - slotBase (slotOf dv)) / 16 * 16 +
          (0 + (dv - slotBase (slotOf dv)) % 2 ^ 4 * 2 ^ 0) = dv := by
        have h16 : (2 : ℕ) ^ 4 = 16 := by norm_num
        rw [h16]
        simp
        have := Nat.div_add_mod (dv - slotBase (slotOf dv)) 16
        omega
      rw [hv]
      rfl

theorem mrunN_sym (N : ℕ) (y : Sym) (w : List ℕ) (r : Reps) (rest : List Bool)
    (hok : SymOk w r y) (hlt : w.length < N) :
    mrunN N ⟨w, r, .start⟩ (symBits y ++ rest) =
    mrunN N ⟨(execSym w r y).1, (execSym w r y).2, .start⟩ rest := by
  cases y with
  | lit b =>
    show mrunN N ⟨w, r, .start⟩ ((false :: treeBits 8 b) ++ rest) = _
    rw [List.cons_append, mrunN_cons_start N w r false _ hlt]
    have hg : gstep ⟨w, r, .start⟩ false = ⟨w, r, .lit8 0 0⟩ := rfl
    rw [hg, mrunN_lit8 N 8 0 0 b w r rest rfl (by omega)]
    have hb : 0 * 2 ^ 8 + b % 2 ^ 8 = b := by
      have : b % 2 ^ 8 = b := Nat.mod_eq_of_lt (by
        show b < 2 ^ 8
        have : b < 256 := hok
        omega)
      omega
    rw [hb]
    rfl
  | mtch dv len =>
    obtain ⟨hwin, hdv, h2, h273⟩ := hok
    show mrunN N ⟨w, r, .start⟩ ((true :: false :: (lenBits len ++ distBits dv)) ++ rest) = _
    rw [List.cons_append, List.cons_append, mrunN_cons_start N w r true _ hlt]
    have hg : gstep ⟨w, r, .start⟩ true = ⟨w, r, .pIsRep⟩ := rfl
    rw [hg, mrunN_cons_mid N _ _ _ (by simp)]
    have hg2 : gstep ⟨w, r, .pIsRep⟩ false = ⟨w, r, .lenChoice .forMatch⟩ := rfl
    rw [hg2, List.append_assoc, mrunN_len N .forMatch len w r _ h2 h273]
    have hld : lenDone ⟨w, r, GPos.lenChoice LenK.forMatch⟩ LenK.forMatch len =
        ⟨w, r, .slot6 len 0 0⟩ := rfl
    rw [hld, mrunN_dist N len dv hdv w r rest]
    rfl
  | rep0 len =>
    obtain ⟨hwin, h2, h273⟩ := hok
    show mrunN N ⟨w, r, .start⟩
        ((true :: true :: false :: true :: lenBits len) ++ rest) = _
    rw [List.cons_append, List.cons_append, List.cons_append, List.cons_append,
      mrunN_cons_start N w r true _ hlt]
    rw [show gstep ⟨w, r, .start⟩ true = ⟨w, r, .pIsRep⟩ from rfl,
      mrunN_cons_mid N _ _ _ (by simp),
      show gstep ⟨w, r, .pIsRep⟩ true = ⟨w, r, .pIsRepG0⟩ from rfl,
      mrunN_cons_mid N _ _ _ (by simp),
      show gstep ⟨w, r, .pIsRepG0⟩ false = ⟨w, r, .pIsRep0Long⟩ from rfl,
      mrunN_cons_mid N _ _ _ (by simp),
      show gstep ⟨w, r, .pIsRep0Long⟩ true = ⟨w, r, .lenChoice .forRep0⟩ from rfl,
      mrunN_len N .forRep0 len w r rest h2 h273]
    rfl
  | rep1 len =>
    obtain ⟨hwin, h2, h273⟩ := hok
    show mrunN N ⟨w, r, .start⟩
        ((true :: true :: true :: false :: lenBits len) ++ rest) = _
    rw [List.cons_append, List.cons_append, List.cons_append, List.cons_append,
      mrunN_cons_start N w r true _ hlt]
    rw [show gstep ⟨w, r, .start⟩ true = ⟨w, r, .pIsRep⟩ from rfl,
      mrunN_cons_mid N _ _ _ (by simp),
      show gstep ⟨w, r, .pIsRep⟩ true = ⟨w, r, .pIsRepG0⟩ from rfl,
      mrunN_cons_mid N _ _ _ (by simp),
      show gstep ⟨w, r, .pIsRepG0⟩ true = ⟨w, r, .pIsRepG1⟩ from rfl,
      mrunN_cons_mid N _ _ _ (by simp),
      show gstep ⟨w, r, .pIsRepG1⟩ false = ⟨w, r, .lenChoice .forRep1⟩ from rfl,
      mrunN_len N .forRep1 len w r rest h2 h273]
    rfl
  | rep2 len =>
    obtain ⟨hwin, h2, h273⟩ := hok
    show mrunN N ⟨w, r, .start⟩
        ((true :: true :: true :: true :: false :: lenBits len) ++ rest) = _
    rw [List.cons_append, List.cons_append, List.cons_append, List.cons_append,
      List.cons_append, mrunN_cons_start N w r true _ hlt]
    rw [show gstep ⟨w, r, .start⟩ true = ⟨w, r, .pIsRep⟩ from rfl,
      mrunN_cons_mid N _ _ _ (by simp),
      show gstep ⟨w, r, .pIsRep⟩ true = ⟨w, r, .pIsRepG0⟩ from rfl,
      mrunN_cons_mid N _ _ _ (by simp),
      show gstep ⟨w, r, .pIsRepG0⟩ true = ⟨w, r, .pIsRepG1⟩ from rfl,
      mrunN_cons_mid N _ _ _ (by simp),
      show gstep ⟨w, r, .pIsRepG1⟩ true = ⟨w, r, .pIsRepG2⟩ from rfl,
      mrunN_cons_mid N _ _ _ (by simp),
      show gstep ⟨w, r, .pIsRepG2⟩ false = ⟨w, r, .lenChoice .forRep2⟩ from rfl,
      mrunN_len N .forRep2 len w r rest h2 h273]
    rfl
  | rep3 len =>
    obtain ⟨hwin, h2, h273⟩ := hok
    show mrunN N ⟨w, r, .start⟩
        ((true :: true :: true :: true :: true :: lenBits len) ++ rest) = _
    rw [List.cons_append, List.cons_append, List.cons_append, List.cons_append,
      List.cons_append, mrunN_cons_start N w r true _ hlt]
    rw [show gstep ⟨w, r, .start⟩ true = ⟨w, r, .pIsRep⟩ from rfl,
      mrunN_cons_mid N _ _ _ (by simp),
      show gstep ⟨w, r, .pIsRep⟩ true = ⟨w, r, .pIsRepG0⟩ from rfl,
      mrunN_cons_mid N _ _ _ (by simp),
      show gstep ⟨w, r, .pIsRepG0⟩ true = ⟨w, r, .pIsRepG1⟩ from rfl,
      mrunN_cons_mid N _ _ _ (by simp),
      show gstep ⟨w, r, .pIsRepG1⟩ true = ⟨w, r, .pIsRepG2⟩ from rfl,
      mrunN_cons_mid N _ _ _ (by simp),
      show gstep ⟨w, r, .pIsRepG2⟩ true = ⟨w, r, .lenChoice .forRep3⟩ from rfl,
      mrunN_len N .forRep3 len w r rest h2 h273]
    rfl
  | shortRep =>
    show mrunN N ⟨w, r, .start⟩
        ((true :: true :: false :: false :: []) ++ rest) = _
    rw [List.cons_append, List.cons_append, List.cons_append, List.cons_append,
      mrunN_cons_start N w r true _ hlt]
    rw [show gstep ⟨w, r, .start⟩ true = ⟨w, r, .pIsRep⟩ from rfl,
      mrunN_cons_mid N _ _ _ (by simp),
      show gstep ⟨w, r, .pIsRep⟩ true = ⟨w, r, .pIsRepG0⟩ from rfl,
      mrunN_cons_mid N _ _ _ (by simp),
      show gstep ⟨w, r, .pIsRepG0⟩ false = ⟨w, r, .pIsRep0Long⟩ from rfl,
      mrunN_cons_mid N _ _ _ (by simp),
      show gstep ⟨w, r, .pIsRep0Long⟩ false =
        ⟨copyFrom w r.r0 1, r, .start⟩ from rfl]
    rw [List.nil_append]
    rfl

/-- Modelled from the spec: the serialized bit stream of a symbol run. -/
def symBitsAll : List Sym → List Bool
  | [] => []
  | y :: ys => symBits y ++ symBitsAll ys

/-- Modelled from the spec: executing a symbol run from a boundary state. -/
def execRun (m : MState) : List Sym → MState
  | [] => m
  | y :: ys => execRun ⟨(execSym m.w m.reps y).1, (execSym m.w m.reps y).2, .start⟩ ys

/-- Modelled from the spec: a symbol run a conforming encoder may emit —
each symbol valid at the window and rep tuple it is executed against. -/
def SymsOk (w : List ℕ) (r : Reps) : List Sym → Prop
  | [] => True
  | y :: ys => SymOk w r y ∧ SymsOk (execSym w r y).1 (execSym w r y).2 ys

theorem execRun_gp (syms : List Sym) : ∀ (w : List ℕ) (r : Reps),
    (execRun ⟨w, r, .start⟩ syms).gp = GPos.start := by
  induction syms with
  | nil => intro w r; rfl
  | cons y ys ih => intro w r; exact ih _ _

theorem execRun_grows (syms : List Sym) : ∀ (w : List ℕ) (r : Reps),
    SymsOk w r syms → w.length ≤ (execRun ⟨w, r, .start⟩ syms).w.length := by
  induction syms with
  | nil => intro w r _; exact le_refl _
  | cons y ys ih =>
    intro w r hok
    have h1 := execSym_grows w r y hok.1
    have h2 := ih (execSym w r y).1 (execSym w r y).2 hok.2
    show w.length ≤ (execRun ⟨(execSym w r y).1, (execSym w r y).2, .start⟩ ys).w.length
    omega

theorem mrunN_run (N : ℕ) (syms : List Sym) : ∀ (w : List ℕ) (r : Reps)
    (junk : List Bool), SymsOk w r syms →
    (execRun ⟨w, r, .start⟩ syms).w.length ≤ N →
    mrunN N ⟨w, r, .start⟩ (symBitsAll syms ++ junk) =
    mrunN N (execRun ⟨w, r, .start⟩ syms) junk := by
  induction syms with
  | nil =>
    intro w r junk hok hN
    rw [show symBitsAll [] = [] from rfl, List.nil_append]
    rfl
  | cons y ys ih =>
    intro w r junk hok hN
    have hgrow := execRun_grows ys (execSym w r y).1 (execSym w r y).2 hok.2
    have h1 := execSym_grows w r y hok.1
    have hfin : (execRun ⟨w, r, GPos.start⟩ (y :: ys)).w.length =
        (execRun ⟨(execSym w r y).1, (execSym w r y).2, GPos.start⟩ ys).w.length := rfl
    have hlt : w.length < N := by
      rw [hfin] at hN
      omega
    show mrunN N ⟨w, r, .start⟩ ((symBits y ++ symBitsAll ys) ++ junk) = _
    rw [List.append_assoc, mrunN_sym N y w r _ hok.1 hlt]
    rw [ih (execSym w r y).1 (execSym w r y).2 junk hok.2 (by rw [hfin] at hN; exact hN)]
    rfl

theorem symBitsAll_bound (syms : List Sym) : ∀ (w : List ℕ) (r : Reps),
    SymsOk w r syms →
    (symBitsAll syms).length + 64 * w.length ≤
      64 * (execRun ⟨w, r, .start⟩ syms).w.length := by
  induction syms with
  | nil =>
    intro w r _
    show ([] : List Bool).length + 64 * w.length ≤ 64 * w.length
    simp
  | cons y ys ih =>
    intro w r hok
    have h1 := symBits_length y w r hok.1
    have h2 := execSym_grows w r y hok.1
    have h3 := ih (execSym w r y).1 (execSym w r y).2 hok.2
    show (symBits y ++ symBitsAll ys).length + 64 * w.length ≤
      64 * (execRun ⟨(execSym w r y).1, (execSym w r y).2, .start⟩ ys).w.length
    rw [List.length_append]
    omega

theorem rcDecModel_split (M : List Bool → RCKind) (k : ℕ) : ∀ (n : ℕ)
    (d : RCDecState) (h : List Bool),
    rcDecModel M (n + k) d h =
      ((rcDecModel M n d h).1 ++
         (rcDecModel M k (rcDecModel M n d h).2 (h ++ (rcDecModel M n d h).1)).1,
       (rcDecModel M k (rcDecModel M n d h).2 (h ++ (rcDecModel M n d h).1)).2) := by
  intro n
  induction n with
  | zero =>
    intro d h
    rw [Nat.zero_add, show rcDecModel M 0 d h = ([], d) from rfl]
    dsimp only
    rw [List.append_nil, List.nil_append]
  | succ n ih =>
    intro d h
    rw [show n + 1 + k = (n + k) + 1 from by omega]
    rw [show rcDecModel M (n + k + 1) d h =
      ((rcDecStep M d h).1 ::
        (rcDecModel M (n + k) (rcDecStep M d h).2 (h ++ [(rcDecStep M d h).1])).1,
       (rcDecModel M (n + k) (rcDecStep M d h).2 (h ++ [(rcDecStep M d h).1])).2) from rfl]
    rw [ih (rcDecStep M d h).2 (h ++ [(rcDecStep M d h).1])]
    rw [show rcDecModel M (n + 1) d h =
      ((rcDecStep M d h).1 ::
        (rcDecModel M n (rcDecStep M d h).2 (h ++ [(rcDecStep M d h).1])).1,
       (rcDecModel M n (rcDecStep M d h).2 (h ++ [(rcDecStep M d h).1])).2) from rfl]
    rw [List.append_assoc]
    rfl

/-- Modelled from the spec: a complete LZMA encode of a symbol run — the
grammar serialization of the symbols, pushed bit-by-bit through the adaptive
range encoder (coding kinds from the shared grammar model, probabilities
from the adaptive assignment `prob`), then flushed. -/
def lzmaEncode (prob : List Bool → ℕ) (syms : List Sym) : List ℕ :=
  rcEncode (modelOps (lzmaM prob) [] (symBitsAll syms))

/-- Modelled from the spec: a complete LZMA decode of `N` plaintext bytes —
initialize the range decoder on the stream, pull bits through the shared
grammar model (64 bits per output byte is a safe budget), and drive the
symbol decoder until `N` window bytes are produced. -/
def lzmaDecode (prob : List Bool → ℕ) (stream : List ℕ) (N : ℕ) : List ℕ :=
  (mrunN N mInit (rcDecModel (lzmaM prob) (64 * N) (rcDecInit stream) []).1).w

theorem lzma_roundtrip_run (prob : List Bool → ℕ)
    (hprob : ∀ h, 0 < prob h ∧ prob h < 2 ^ 11)
    (syms : List Sym) (hok : SymsOk [] ⟨0, 0, 0, 0⟩ syms) :
    lzmaDecode prob (lzmaEncode prob syms)
      (execRun mInit syms).w.length = (execRun mInit syms).w := by
  have hMvalid : ∀ h, RCKindValid (lzmaM prob h) := by
    intro h
    unfold lzmaM
    split
    · trivial
    · exact (hprob h)
  have hvalid : ∀ op ∈ modelOps (lzmaM prob) [] (symBitsAll syms), RCOpValid op :=
    modelOps_valid (lzmaM prob) hMvalid (symBitsAll syms) []
  obtain ⟨hB, htr', hstate⟩ :=
    rcEncode_setup (modelOps (lzmaM prob) [] (symBitsAll syms)) hvalid
  have h24 : kTopValue ≤ rcEncInit.range := by
    show kTopValue ≤ 2 ^ 32 - 1
    unfold kTopValue
    omega
  have hsim := rcDecModel_sim (lzmaM prob) hMvalid (symBitsAll syms) [] rcEncInit
    (rcEncode (modelOps (lzmaM prob) [] (symBitsAll syms))) rcEncInit_inv h24 hB htr'
  have hbound : (symBitsAll syms).length ≤ 64 * (execRun mInit syms).w.length := by
    have hb := symBitsAll_bound syms [] ⟨0, 0, 0, 0⟩ hok
    simp at hb
    exact hb
  show (mrunN (execRun mInit syms).w.length mInit
      (rcDecModel (lzmaM prob) (64 * (execRun mInit syms).w.length)
        (rcDecInit (lzmaEncode prob syms)) []).1).w = _
  rw [show lzmaEncode prob syms =
      rcEncode (modelOps (lzmaM prob) [] (symBitsAll syms)) from rfl]
  rw [show 64 * (execRun mInit syms).w.length =
      (symBitsAll syms).length +
        (64 * (execRun mInit syms).w.length - (symBitsAll syms).length) from by omega]
  rw [rcDecModel_split (lzmaM prob)
    (64 * (execRun mInit syms).w.length - (symBitsAll syms).length)
    (symBitsAll syms).length _ []]
  rw [hstate, hsim]
  dsimp only
  rw [show mInit = (⟨[], ⟨0, 0, 0, 0⟩, GPos.start⟩ : MState) from rfl]
  rw [mrunN_run _ syms [] ⟨0, 0, 0, 0⟩ _ hok (le_refl _)]
  rw [mrunN_stop _ _ _ (execRun_gp syms [] ⟨0, 0, 0, 0⟩) (le_refl _)]

theorem lit_parse_aux (P : List ℕ) : ∀ (w : List ℕ) (r : Reps),
    (∀ b ∈ P, b < 256) →
    SymsOk w r (P.map Sym.lit) ∧
    (execRun ⟨w, r, .start⟩ (P.map Sym.lit)).w = w ++ P := by
  induction P with
  | nil =>
    intro w r _
    exact ⟨trivial, by simp [execRun]⟩
  | cons b P ih =>
    intro w r hP
    have hb : b < 256 := hP b (List.mem_cons_self b P)
    have hrest : ∀ x ∈ P, x < 256 := fun x hx => hP x (List.mem_cons_of_mem _ hx)
    obtain ⟨hok, hw⟩ := ih (w ++ [b]) r hrest
    refine ⟨⟨hb, hok⟩, ?_⟩
    show (execRun ⟨w ++ [b], r, .start⟩ (P.map Sym.lit)).w = w ++ b :: P
    rw [hw]
    simp

/-- Every byte sequence has a conforming parse: the all-literals run is
valid and executes to the sequence itself. -/
theorem lit_parse (P : List ℕ) (hP : ∀ b ∈ P, b < 256) :
    SymsOk [] ⟨0, 0, 0, 0⟩ (P.map Sym.lit) ∧
    (execRun mInit (P.map Sym.lit)).w = P := by
  obtain ⟨hok, hw⟩ := lit_parse_aux P [] ⟨0, 0, 0, 0⟩ hP
  exact ⟨hok, by rw [show mInit = (⟨[], ⟨0, 0, 0, 0⟩, GPos.start⟩ : MState) from rfl, hw]; simp⟩

/-- C1: the LZMA round trip, modelled from the spec (the engine source is
not under `src/`).  For every byte sequence `P`, every valid symbol run a
conforming encoder may choose for `P` — literal bytes, fresh matches, rep
matches and short reps, each inside the window and the format's
distance/length ranges — and every adaptive probability assignment
(subsuming the configuration's `lc`/`lp`/`pb` context scheme, the 12-state
machine and the adaptive updates, all of which select only which probability
is consulted), decoding the encoded stream yields exactly `P`. -/
theorem lzma_roundtrip (prob : List Bool → ℕ)
    (hprob : ∀ h, 0 < prob h ∧ prob h < 2 ^ 11)
    (P : List ℕ) (syms : List Sym) (hok : SymsOk [] ⟨0, 0, 0, 0⟩ syms)
    (hexec : (execRun mInit syms).w = P) :
    lzmaDecode prob (lzmaEncode prob syms) P.length = P := by
  subst hexec
  exact lzma_roundtrip_run prob hprob syms hok

/-- Witness for the round trip: the bytes `"ABAB"` produced as two literals
and one distance-2 length-2 match, under the equiprobable assignment. -/
theorem lzma_roundtrip_witness :
    (∀ h : List Bool, 0 < (fun _ : List Bool => 1024) h ∧
      (fun _ : List Bool => 1024) h < 2 ^ 11) ∧
    SymsOk [] ⟨0, 0, 0, 0⟩ [Sym.lit 65, Sym.lit 66, Sym.mtch 1 2] ∧
    (execRun mInit [Sym.lit 65, Sym.lit 66, Sym.mtch 1 2]).w = [65, 66, 65, 66] ∧
    lzmaDecode (fun _ => 1024)
      (lzmaEncode (fun _ => 1024) [Sym.lit 65, Sym.lit 66, Sym.mtch 1 2])
      ([65, 66, 65, 66] : List ℕ).length = [65, 66, 65, 66] := by
  have hprob : ∀ h : List Bool, 0 < (fun _ : List Bool => 1024) h ∧
      (fun _ : List Bool => 1024) h < 2 ^ 11 := fun h => ⟨by norm_num, by norm_num⟩
  have hok : SymsOk [] ⟨0, 0, 0, 0⟩ [Sym.lit 65, Sym.lit 66, Sym.mtch 1 2] := by
    norm_num [SymsOk, SymOk, execSym, copyFrom]
  have hexec : (execRun mInit [Sym.lit 65, Sym.lit 66, Sym.mtch 1 2]).w =
      [65, 66, 65, 66] := by decide
  exact ⟨hprob, hok, hexec,
    lzma_roundtrip (fun _ => 1024) hprob [65, 66, 65, 66]
      [Sym.lit 65, Sym.lit 66, Sym.mtch 1 2] hok hexec⟩

end Spec2Proof
